import Mathlib

/-
Verification of `tools/compile_benchmark_files.py`: the merge of per-run
benchmark JSON files into one combined document.

The embedding models decoded JSON values as the inductive type `JVal`
(Python's json.load output), Python dictionaries as association lists in
insertion order, and Python exceptions as `Except PyErr`.  Python floats
are modeled by their exact rational value: all properties below concern
equality, ordering and serialization of decoded values, never
floating-point rounding, and JSON number literals denote finite decimals.
A small explicit-heap model near the end captures the object-identity
(aliasing) behavior of the output-record construction loop.
-/

/-- A decoded JSON value as produced by Python's `json.load`.  Objects are
association lists of string keys in insertion order, as Python dicts are;
`json.load` never produces duplicate keys. -/
inductive JVal where
  | jnull : JVal
  | jbool : Bool → JVal
  | jint : Int → JVal
  | jfloat : Rat → JVal
  | jstr : String → JVal
  | jarr : List JVal → JVal
  | jobj : List (String × JVal) → JVal
deriving Repr

mutual

def JVal.beq : JVal → JVal → Bool
  | .jnull, .jnull => true
  | .jbool a, .jbool b => a == b
  | .jint a, .jint b => a == b
  | .jfloat a, .jfloat b => a == b
  | .jstr a, .jstr b => a == b
  | .jarr xs, .jarr ys => JVal.beqList xs ys
  | .jobj xs, .jobj ys => JVal.beqFields xs ys
  | _, _ => false

def JVal.beqList : List JVal → List JVal → Bool
  | [], [] => true
  | x :: xs, y :: ys => JVal.beq x y && JVal.beqList xs ys
  | _, _ => false

def JVal.beqFields : List (String × JVal) → List (String × JVal) → Bool
  | [], [] => true
  | (k, v) :: xs, (l, w) :: ys => k == l && JVal.beq v w && JVal.beqFields xs ys
  | _, _ => false

end

theorem JVal.beqList_iff (xs ys : List JVal)
    (h : ∀ x ∈ xs, ∀ b, (JVal.beq x b = true ↔ x = b)) :
    (JVal.beqList xs ys = true ↔ xs = ys) := by
  induction xs generalizing ys with
  | nil => cases ys <;> simp [JVal.beqList]
  | cons x xs ih =>
    cases ys with
    | nil => simp [JVal.beqList]
    | cons y ys =>
      have hx := h x (by simp)
      have hrest := ih ys (fun z hz b => h z (by simp [hz]) b)
      simp [JVal.beqList, Bool.and_eq_true, hx, hrest]

theorem JVal.beqFields_iff (xs ys : List (String × JVal))
    (h : ∀ p ∈ xs, ∀ b, (JVal.beq p.2 b = true ↔ p.2 = b)) :
    (JVal.beqFields xs ys = true ↔ xs = ys) := by
  induction xs generalizing ys with
  | nil => cases ys <;> simp [JVal.beqFields]
  | cons x xs ih =>
    cases ys with
    | nil => simp [JVal.beqFields]
    | cons y ys =>
      obtain ⟨k, v⟩ := x
      obtain ⟨l, w⟩ := y
      have hv := h (k, v) (by simp)
      have hrest := ih ys (fun z hz b => h z (by simp [hz]) b)
      simp only [JVal.beqFields, Bool.and_eq_true, beq_iff_eq, hv, hrest,
        List.cons.injEq, Prod.mk.injEq]

theorem JVal.beq_iff : ∀ (a b : JVal), (JVal.beq a b = true ↔ a = b) := by
  have main : ∀ (n : Nat) (a b : JVal), sizeOf a ≤ n → (JVal.beq a b = true ↔ a = b) := by
    intro n
    induction n with
    | zero =>
      intro a b h
      exfalso
      cases a <;> simp_arith at h
    | succ n ih =>
      intro a b h
      cases a <;> cases b <;> (try (simp [JVal.beq]; done))
      case jarr.jarr xs ys =>
        have hxs : sizeOf xs ≤ n := by simp_arith at h; omega
        have helem : ∀ x ∈ xs, ∀ b, (JVal.beq x b = true ↔ x = b) := by
          intro x hx b
          exact ih x b (by have := List.sizeOf_lt_of_mem hx; omega)
        simp [JVal.beq, JVal.beqList_iff xs ys helem]
      case jobj.jobj xs ys =>
        have hxs : sizeOf xs ≤ n := by simp_arith at h; omega
        have helem : ∀ p ∈ xs, ∀ b, (JVal.beq p.2 b = true ↔ p.2 = b) := by
          intro p hp b
          have h1 := List.sizeOf_lt_of_mem hp
          have h2 : sizeOf p.2 < sizeOf p := by
            obtain ⟨k, v⟩ := p
            simp_arith
          exact ih p.2 b (by omega)
        simp [JVal.beq, JVal.beqFields_iff xs ys helem]
  intro a b
  exact main (sizeOf a) a b (le_refl _)

instance : DecidableEq JVal := fun a b => decidable_of_iff _ (JVal.beq_iff a b)

/-- A Python dict decoded from JSON: string keys in insertion order. -/
abbrev Rec := List (String × JVal)

/-- `d.get(k)` membership/read: the first binding of key `k` (Python dicts
are duplicate-free, so first = only). -/
def lookupField (fs : Rec) (k : String) : Option JVal :=
  (fs.find? (fun p => p.1 == k)).map (fun p => p.2)

/-- Python exceptions that the merge can raise. -/
inductive PyErr where
  | typeError : PyErr
  | attributeError : PyErr
  | valueError : PyErr
deriving DecidableEq, Repr

/-- Lines 34-40 of `load_first_benchmark`: decide the shape of one parsed
JSON document and produce its benchmark record, if any.  File reading and
JSON parsing (lines 27-32) are plumbing, modeled by the caller handing in
an `Option JVal` (`none` = unreadable or unparseable). -/
def load_first_benchmark (data : JVal) : Option JVal :=
  match data with
  | .jobj fields =>
    match lookupField fields "benchmarks" with
    | some (.jarr (b :: _)) => some b
    | _ => if (lookupField fields "type_").isSome then some data else none
  | .jarr (x :: _) => some x
  | _ => none

/-- Code-point three-way comparison of character lists: Python compares
and sorts strings by Unicode code point, lexicographically. -/
def charListCmp : List Char → List Char → Ordering
  | [], [] => .eq
  | [], _ :: _ => .lt
  | _ :: _, [] => .gt
  | c :: cs, d :: ds =>
    if c.toNat < d.toNat then .lt
    else if d.toNat < c.toNat then .gt
    else charListCmp cs ds

/-- Python string comparison. -/
def strCmp (a b : String) : Ordering := charListCmp a.toList b.toList

/-- Stable insertion of one key-value pair into a key-sorted field list
(equal keys keep their original relative order). -/
def insField (p : String × JVal) : List (String × JVal) → List (String × JVal)
  | [] => [p]
  | q :: qs => if strCmp p.1 q.1 = .lt then p :: q :: qs else q :: insField p qs

/-- Stable sort of an object's fields by key, as `sort_keys=True` does. -/
def sortFields : List (String × JVal) → List (String × JVal)
  | [] => []
  | p :: ps => insField p (sortFields ps)

mutual

/-- The canonical form of a value: object keys recursively sorted.  Two
values are structurally equal up to object-key order exactly when their
canonical forms coincide. -/
def canon : JVal → JVal
  | .jarr xs => .jarr (canonList xs)
  | .jobj fs => .jobj (sortFields (canonFields fs))
  | v => v

def canonList : List JVal → List JVal
  | [] => []
  | x :: xs => canon x :: canonList xs

def canonFields : List (String × JVal) → List (String × JVal)
  | [] => []
  | (k, v) :: fs => (k, canon v) :: canonFields fs

end

def toHexDigit (n : Nat) : Char :=
  if n < 10 then Char.ofNat (48 + n) else Char.ofNat (87 + n)

def toHex4 (n : Nat) : String :=
  String.mk [toHexDigit (n / 4096 % 16), toHexDigit (n / 256 % 16),
             toHexDigit (n / 16 % 16), toHexDigit (n % 16)]

/-- JSON string escaping as `json.dumps` performs it with the default
`ensure_ascii=True`: quote, backslash and control characters escaped,
non-ASCII characters as `\uXXXX` (surrogate pairs beyond the BMP). -/
def escapeChar (c : Char) : String :=
  if c = '"' then "\\\""
  else if c = '\\' then "\\\\"
  else if c = '\n' then "\\n"
  else if c = '\t' then "\\t"
  else if c = '\r' then "\\r"
  else if c.toNat = 8 then "\\b"
  else if c.toNat = 12 then "\\f"
  else if c.toNat < 32 then "\\u" ++ toHex4 c.toNat
  else if c.toNat < 127 then String.mk [c]
  else if c.toNat < 65536 then "\\u" ++ toHex4 c.toNat
  else
    "\\u" ++ toHex4 (55296 + (c.toNat - 65536) / 1024) ++
    "\\u" ++ toHex4 (56320 + (c.toNat - 65536) % 1024)

def quoteStr (s : String) : String :=
  "\"" ++ String.join (s.toList.map escapeChar) ++ "\""

/-- Least exponent `k` (searched up to the fuel bound) with `den ∣ 10^k`;
the denominator of a JSON float literal is 10-smooth, so the search
always succeeds on values the program can decode. -/
def findPow10 (den : Nat) : Nat → Nat → Option Nat
  | k, 0 => if 10 ^ k % den = 0 then some k else none
  | k, fuel + 1 => if 10 ^ k % den = 0 then some k else findPow10 den (k + 1) fuel

def padZeros (s : String) (k : Nat) : String :=
  String.mk (List.replicate (k - s.length) '0') ++ s

/-- `repr` of a nonnegative float value: the shortest decimal expansion
(Python's float repr), e.g. `1.0`, `2.5`, `0.1`. -/
def floatReprNN (q : Rat) : String :=
  match findPow10 q.den 0 64 with
  | some k =>
    if k = 0 then toString q.num ++ ".0"
    else
      let scaled := q.num.toNat * 10 ^ k / q.den
      toString (scaled / 10 ^ k) ++ "." ++ padZeros (toString (scaled % 10 ^ k)) k
  | none => toString q.num ++ "/" ++ toString q.den

/-- `repr` of a float value. -/
def floatRepr (q : Rat) : String :=
  if q < 0 then "-" ++ floatReprNN (-q) else floatReprNN q

mutual

/-- Emission of a canonical value as `json.dumps` text (default
separators `", "` and `": "`). -/
def emit : JVal → String
  | .jnull => "null"
  | .jbool true => "true"
  | .jbool false => "false"
  | .jint n => toString n
  | .jfloat q => floatRepr q
  | .jstr s => quoteStr s
  | .jarr xs => "[" ++ emitElems xs ++ "]"
  | .jobj fs => "\x7b" ++ emitFields fs ++ "\x7d"

def emitElems : List JVal → String
  | [] => ""
  | [x] => emit x
  | x :: y :: xs => emit x ++ ", " ++ emitElems (y :: xs)

def emitFields : List (String × JVal) → String
  | [] => ""
  | [(k, v)] => quoteStr k ++ ": " ++ emit v
  | (k, v) :: q :: fs => quoteStr k ++ ": " ++ emit v ++ ", " ++ emitFields (q :: fs)

end

/-- `json.dumps(x, sort_keys=True)` (line 102): deterministic text with
object keys recursively sorted. -/
def dumps (v : JVal) : String := emit (canon v)

/-- A member of the `seen` set of `uniq` (lines 95-107).  Python holds the
scalar itself or the `json.dumps` string there; numbers (and booleans,
which are ints in Python) compare and hash by numeric value, so the set
element for a scalar is its exact rational value, and for anything else
the dump string.  A raw string scalar shares the string key space with
the dump strings, exactly as in the Python set. -/
inductive PyKey where
  | num : Rat → PyKey
  | str : String → PyKey
deriving DecidableEq, Repr

/-- The dedup key of one element (lines 99-102): scalars
(`float`/`int`/`str`, hence also `bool`) key by their own value, anything
else by its sorted-keys serialization. -/
def pyKey : JVal → PyKey
  | .jbool b => .num (if b then 1 else 0)
  | .jint n => .num n
  | .jfloat q => .num q
  | .jstr s => .str s
  | v => .str (dumps v)

def uniqAux (seen : List PyKey) : List JVal → List JVal
  | [] => []
  | x :: xs =>
    if pyKey x ∈ seen then uniqAux seen xs
    else x :: uniqAux (pyKey x :: seen) xs

/-- `uniq` (lines 95-107): order-preserving deduplication by `pyKey`. -/
def uniq (seq : List JVal) : List JVal := uniqAux [] seq

/-- The numeric value of a Python number (`bool` is an `int` subclass, so
`True == 1` and `False == 0`). -/
def numVal : JVal → Option Rat
  | .jbool b => some (if b then 1 else 0)
  | .jint n => some n
  | .jfloat q => some q
  | _ => none

def ratCmp (a b : Rat) : Ordering :=
  if a < b then .lt else if a = b then .eq else .gt

mutual

/-- Python's three-way comparison on decoded JSON values: numbers (and
booleans) compare by numeric value, strings with strings, lists
lexicographically; every other pair (None or dicts included) raises
TypeError. -/
def pyCompare : JVal → JVal → Except PyErr Ordering
  | .jstr s, .jstr t => .ok (strCmp s t)
  | .jarr xs, .jarr ys => pyCompareList xs ys
  | a, b =>
    match numVal a, numVal b with
    | some x, some y => .ok (ratCmp x y)
    | _, _ => .error .typeError

/-- Python sequence comparison: first non-equal position decides; a
strict prefix is smaller. -/
def pyCompareList : List JVal → List JVal → Except PyErr Ordering
  | [], [] => .ok .eq
  | [], _ :: _ => .ok .lt
  | _ :: _, [] => .ok .gt
  | x :: xs, y :: ys =>
    match pyCompare x y with
    | .error e => .error e
    | .ok .eq => pyCompareList xs ys
    | .ok o => .ok o

end

/-- `a <= b` would hold in Python (both sides comparable). -/
def pyLe (a b : JVal) : Prop :=
  pyCompare a b = .ok .lt ∨ pyCompare a b = .ok .eq

/-- `a` and `b` are comparable in Python (comparing them raises nothing). -/
def pyComparable (a b : JVal) : Prop :=
  ∃ o, pyCompare a b = .ok o

/-- Stable insertion by Python comparisons: `x` goes in front of the
first strictly greater element, after equals; raises as soon as a
performed comparison does. -/
def pyInsert (x : JVal) : List JVal → Except PyErr (List JVal)
  | [] => .ok [x]
  | y :: ys =>
    match pyCompare x y with
    | .error e => .error e
    | .ok .lt => .ok (x :: y :: ys)
    | .ok _ =>
      match pyInsert x ys with
      | .error e => .error e
      | .ok zs => .ok (y :: zs)

def pySortAux : List JVal → List JVal → Except PyErr (List JVal)
  | acc, [] => .ok acc
  | acc, x :: xs =>
    match pyInsert x acc with
    | .error e => .error e
    | .ok acc2 => pySortAux acc2 xs

/-- `sorted(l)` (line 124): a stable comparison sort; it raises exactly
when one of the comparisons it performs is unsupported, and on mutually
comparable input it agrees with Python's stable sort. -/
def pySorted (l : List JVal) : Except PyErr (List JVal) := pySortAux [] l

/-- The four sweep-level running arrays of lines 59-62. -/
structure SweepLists where
  measured_rates : List JVal
  measured_concurrencies : List JVal
  streams : List JVal
  strategy_types : List JVal
deriving DecidableEq, Repr

/-- `v.get(k, dflt)`: AttributeError unless `v` is a dict (the default is
used only when the key is absent; an explicit JSON `null` value is
returned as such, because decoded `null` is Python `None`). -/
def pyGetD (v : JVal) (k : String) (dflt : JVal) : Except PyErr JVal :=
  match v with
  | .jobj fs => .ok ((lookupField fs k).getD dflt)
  | _ => .error .attributeError

/-- `v.get(k)`: `.get` with default `None`; decoded JSON `null` and
Python `None` coincide, so an absent key and a null value are
indistinguishable here, exactly as in the source. -/
def pyGetN (v : JVal) (k : String) : Except PyErr JVal := pyGetD v k .jnull

/-- What one read value adds to a running array (e.g. lines 68-72):
`extend` for a list, nothing for `None`, `append` otherwise. -/
def contrib : JVal → List JVal
  | .jarr xs => xs
  | .jnull => []
  | v => [v]

/-- One iteration of the collection loop (lines 64-92): the four
contributions of one record, in source order, with the `streams`
fallback to `args.strategy.streams` when `profile.streams` is `None`. -/
def recordSweep (b : Rec) : Except PyErr (List JVal × List JVal × List JVal × List JVal) := do
  let b_args := (lookupField b "args").getD (.jobj [])
  let b_profile ← pyGetD b_args "profile" (.jobj [])
  let mr ← pyGetN b_profile "measured_rates"
  let mc ← pyGetN b_profile "measured_concurrencies"
  let s0 ← pyGetN b_profile "streams"
  let s ← if s0 = .jnull then do
            let strat ← pyGetD b_args "strategy" (.jobj [])
            pyGetN strat "streams"
          else pure s0
  let st ← pyGetN b_profile "strategy_types"
  pure (contrib mr, contrib mc, contrib s, contrib st)

/-- Appending one record's contributions to the four running arrays. -/
def sweepStep (acc : SweepLists) (b : Rec) : Except PyErr SweepLists := do
  let (mr, mc, s, st) ← recordSweep b
  pure ⟨acc.measured_rates ++ mr, acc.measured_concurrencies ++ mc,
        acc.streams ++ s, acc.strategy_types ++ st⟩

/-- Lines 58-92: the four running arrays collected across all records in
order. -/
def collectLists (benchmarks : List Rec) : Except PyErr SweepLists :=
  benchmarks.foldlM sweepStep ⟨[], [], [], []⟩

/-- Lines 109-128: dedup the four arrays, best-effort sort `streams`, and
assemble the combined profile in source insertion order, each array key
present only when non-empty. -/
def combined_profile (benchmarks : List Rec) : Except PyErr Rec := do
  let L ← collectLists benchmarks
  let measured_rates_u := uniq L.measured_rates
  let measured_concurrencies_u := uniq L.measured_concurrencies
  let streams_u := uniq L.streams
  let strategy_types_u := uniq L.strategy_types
  pure ([("type_", JVal.jstr "concurrent"),
         ("completed_strategies", JVal.jint benchmarks.length)]
    ++ (if measured_rates_u.isEmpty then [] else
         [("measured_rates", JVal.jarr measured_rates_u)])
    ++ (if measured_concurrencies_u.isEmpty then [] else
         [("measured_concurrencies", JVal.jarr measured_concurrencies_u)])
    ++ (if streams_u.isEmpty then [] else
         [("streams", JVal.jarr (match pySorted streams_u with
                                 | .ok ys => ys
                                 | .error _ => streams_u))])
    ++ (if strategy_types_u.isEmpty then [] else
         [("strategy_types", JVal.jarr strategy_types_u)]))

/-- Python dict assignment `d[k] = v`: overwrite in place (keeping the
key's position) when the key is bound, append a new binding otherwise
(decoded dicts are duplicate-free, so the first binding is the only
one). -/
def setKey : Rec → String → JVal → Rec
  | [], k, v => [(k, v)]
  | p :: ps, k, v => if p.1 == k then (k, v) :: ps else p :: setKey ps k v

/-- `dict(b)` (line 51): copies a dict; builds a dict from a list of
`[key, value]` pairs (later occurrences of a key win) or from an empty
string; raises TypeError/ValueError otherwise.  Python also accepts
pairs with arbitrary hashable keys and two-character strings as pairs;
decoded JSON objects are string-keyed, so those exotic inputs are out of
the model and mapped to an error. -/
def pairOf : JVal → Except PyErr (String × JVal)
  | .jarr [.jstr k, v] => .ok (k, v)
  | _ => .error .typeError

def pyDict : JVal → Except PyErr Rec
  | .jobj fs => .ok fs
  | .jarr xs => do
      let ps ← xs.mapM pairOf
      pure (ps.foldl (fun d p => setKey d p.1 p.2) [])
  | .jstr s => if s.isEmpty then .ok [] else .error .valueError
  | _ => .error .typeError

/-- `s.rstrip('/')` (specialized to the one character used on line 139). -/
def rstripSlashes (s : String) : String :=
  String.mk ((s.toList.reverse.dropWhile (fun c => c = '/')).reverse)

/-- `os.path.basename`: the part after the last slash. -/
def basename (s : String) : String :=
  String.mk ((s.toList.reverse.takeWhile (fun c => c ≠ '/')).reverse)

/-- One candidate input file: its path and its parse result (`none` =
unreadable or not valid JSON).  The directory scan and sort of line 44
are plumbing; `merge_benchmark_files` receives the files already in
sorted order. -/
structure InputFile where
  path : String
  parsed : Option JVal
deriving DecidableEq, Repr

/-- The fatal outcomes of one merge run: the deliberate SystemExit of
line 56, or an uncaught Python exception. -/
inductive MergeErr where
  | noRecords (msg : String) : MergeErr
  | pyErr (e : PyErr) : MergeErr
deriving DecidableEq, Repr

/-- Lines 46-53: extract one record per file, skip files yielding none,
shallow-copy the record via `dict(b)` and tag it with its source file. -/
def collectBenchmarks : List InputFile → Except PyErr (List Rec)
  | [] => .ok []
  | f :: fs =>
    match f.parsed.bind load_first_benchmark with
    | none => collectBenchmarks fs
    | some b =>
      match pyDict b with
      | .error e => .error e
      | .ok d =>
        match collectBenchmarks fs with
        | .error e => .error e
        | .ok rest => .ok (setKey d "__source_file" (.jstr (basename f.path)) :: rest)

/-- Lines 131-135: output record = shallow copy of the record whose
`args` value (reused when present — `setdefault` — fresh `{}` when
absent) gets `profile` bound to a copy of the combined profile; item
assignment on a non-dict `args` raises TypeError. -/
def attachProfile (cp : Rec) (b : Rec) : Except PyErr Rec :=
  match lookupField b "args" with
  | none => .ok (setKey b "args" (.jobj [("profile", .jobj cp)]))
  | some (.jobj afs) => .ok (setKey b "args" (.jobj (setKey afs "profile" (.jobj cp))))
  | some _ => .error .typeError

/-- Lines 43-141, value level: `merge_benchmark_files(input_dir)` on the
sorted file list.  `raise SystemExit` is `MergeErr.noRecords`; an
uncaught Python exception is `MergeErr.pyErr`. -/
def merge_benchmark_files (input_dir : String) (files : List InputFile) :
    Except MergeErr JVal := do
  let benchmarks ← (collectBenchmarks files).mapError MergeErr.pyErr
  if benchmarks.isEmpty then
    Except.error (MergeErr.noRecords ("No benchmark entries found in " ++ input_dir))
  else do
    let cp ← (combined_profile benchmarks).mapError MergeErr.pyErr
    let outs ← (benchmarks.mapM (attachProfile cp)).mapError MergeErr.pyErr
    let outs := outs.map
      (fun b => setKey b "__combined_from" (.jstr (basename (rstripSlashes input_dir))))
    pure (.jobj [("benchmarks", .jarr (outs.map JVal.jobj))])

theorem uniqAux_sublist (seen : List PyKey) (s : List JVal) :
    (uniqAux seen s).Sublist s := by
  induction s generalizing seen with
  | nil => simp [uniqAux]
  | cons z zs ih =>
    by_cases h : pyKey z ∈ seen
    · simpa [uniqAux, h] using (ih seen).cons z
    · simpa [uniqAux, h] using (ih (pyKey z :: seen)).cons₂ z

theorem uniqAux_key_not_seen (seen : List PyKey) (s : List JVal) :
    ∀ x ∈ uniqAux seen s, pyKey x ∉ seen := by
  induction s generalizing seen with
  | nil => simp [uniqAux]
  | cons z zs ih =>
    by_cases h : pyKey z ∈ seen
    · simpa [uniqAux, h] using ih seen
    · intro x hx
      simp only [uniqAux, h, if_false] at hx
      rcases List.mem_cons.mp hx with rfl | hx
      · exact h
      · have := ih (pyKey z :: seen) x hx
        exact fun hc => this (List.mem_cons_of_mem _ hc)

theorem uniqAux_keys_nodup (seen : List PyKey) (s : List JVal) :
    ((uniqAux seen s).map pyKey).Nodup := by
  induction s generalizing seen with
  | nil => simp [uniqAux]
  | cons z zs ih =>
    by_cases h : pyKey z ∈ seen
    · simpa [uniqAux, h] using ih seen
    · simp only [uniqAux, h, if_false, List.map_cons, List.nodup_cons]
      refine ⟨?_, ih (pyKey z :: seen)⟩
      intro hc
      rcases List.mem_map.mp hc with ⟨y, hy, hky⟩
      exact uniqAux_key_not_seen _ _ y hy (hky ▸ List.mem_cons_self _ _)

theorem uniqAux_complete (seen : List PyKey) (s : List JVal) :
    ∀ x ∈ s, pyKey x ∈ seen ∨ ∃ y ∈ uniqAux seen s, pyKey y = pyKey x := by
  induction s generalizing seen with
  | nil => simp
  | cons z zs ih =>
    intro x hx
    by_cases h : pyKey z ∈ seen
    · rcases List.mem_cons.mp hx with rfl | hx
      · exact Or.inl h
      · simpa [uniqAux, h] using ih seen x hx
    · simp only [uniqAux, h, if_false]
      rcases List.mem_cons.mp hx with rfl | hx
      · exact Or.inr ⟨x, List.mem_cons_self _ _, rfl⟩
      · rcases ih (pyKey z :: seen) x hx with hs | ⟨y, hy, hky⟩
        · rcases List.mem_cons.mp hs with heq | hs
          · exact Or.inr ⟨z, List.mem_cons_self _ _, heq.symm⟩
          · exact Or.inl hs
        · exact Or.inr ⟨y, List.mem_cons_of_mem _ hy, hky⟩

theorem uniqAux_first_occ (seen : List PyKey) (s : List JVal) :
    ∀ x ∈ uniqAux seen s, s.find? (fun z => pyKey z == pyKey x) = some x := by
  induction s generalizing seen with
  | nil => simp [uniqAux]
  | cons z zs ih =>
    intro x hx
    by_cases h : pyKey z ∈ seen
    · simp only [uniqAux, h, if_true] at hx
      have hxs := uniqAux_key_not_seen seen zs x hx
      have hne : (pyKey z == pyKey x) = false := by
        rcases hbe : pyKey z == pyKey x with _ | _
        · rfl
        · exact absurd (eq_of_beq hbe ▸ h) hxs
      simp [List.find?_cons, hne, ih seen x hx]
    · simp only [uniqAux, h, if_false] at hx
      rcases List.mem_cons.mp hx with rfl | hx
      · simp [List.find?_cons]
      · have hxs := uniqAux_key_not_seen _ _ x hx
        have hne : (pyKey z == pyKey x) = false := by
          rcases hbe : pyKey z == pyKey x with _ | _
          · rfl
          · exact absurd (List.mem_cons_self _ _) (eq_of_beq hbe ▸ hxs)
        simp [List.find?_cons, hne, ih (pyKey z :: seen) x hx]

theorem pyKey_of_canon_eq (a b : JVal) (h : canon a = canon b) : pyKey a = pyKey b := by
  cases a <;> cases b <;> simp_all [canon, pyKey, dumps]

/-- Claim C2: `uniq` returns the subsequence of first occurrences without
reordering: it is a sublist of its input, no two survivors share a dedup
key, every input element's key is represented, and each survivor is the
first input element bearing its key; number/boolean scalars that are
equal under Python's native equality (such as `1` and `1.0`) share one
key and hence collapse, and values that are structurally equal up to
object-key order (equal canonical forms) share one key and hence
collapse. -/
theorem uniq_first_occurrence_spec :
    (∀ s : List JVal, (uniq s).Sublist s) ∧
    (∀ s : List JVal, ((uniq s).map pyKey).Nodup) ∧
    (∀ s : List JVal, ∀ x ∈ s, ∃ y ∈ uniq s, pyKey y = pyKey x) ∧
    (∀ s : List JVal, ∀ x ∈ uniq s,
      s.find? (fun z => pyKey z == pyKey x) = some x) ∧
    (∀ a b : JVal, ∀ q : Rat, numVal a = some q → numVal b = some q →
      pyKey a = pyKey b) ∧
    (∀ a b : JVal, canon a = canon b → pyKey a = pyKey b) := by
  refine ⟨fun s => uniqAux_sublist [] s,
          fun s => uniqAux_keys_nodup [] s,
          ?_,
          fun s => uniqAux_first_occ [] s,
          ?_,
          pyKey_of_canon_eq⟩
  · intro s x hx
    rcases uniqAux_complete [] s x hx with h | h
    · simp at h
    · exact h
  · intro a b q ha hb
    cases a <;> cases b <;> simp_all [numVal, pyKey]

/-- Witness for C2 at concrete inputs: in `[1, 1.0]` the survivor `1` is
the first element with its key, and `1` and `1.0` share one key. -/
theorem uniq_first_occurrence_spec_witness :
    ([JVal.jint 1, JVal.jfloat 1].find?
        (fun z => pyKey z == pyKey (JVal.jint 1)) = some (JVal.jint 1)) ∧
    pyKey (JVal.jint 1) = pyKey (JVal.jfloat 1) :=
  ⟨uniq_first_occurrence_spec.2.2.2.1 [JVal.jint 1, JVal.jfloat 1]
      (JVal.jint 1) (by decide),
   uniq_first_occurrence_spec.2.2.2.2.1 (JVal.jint 1) (JVal.jfloat 1) 1 rfl rfl⟩

/-- Claim C3: the record extractor decides by the fixed priority order,
first match winning: (a) an object with a non-empty list under
`benchmarks` yields that list's first element; (b) otherwise an object
containing `type_` yields the object itself; (c) otherwise a non-empty
list yields its first element; (d) anything else (empty list, object
with neither key, scalar) yields no record. -/
theorem extractor_decision_order (data : JVal) :
    (∀ fields b rest, data = .jobj fields →
      lookupField fields "benchmarks" = some (.jarr (b :: rest)) →
      load_first_benchmark data = some b) ∧
    (∀ fields, data = .jobj fields →
      (∀ b rest, lookupField fields "benchmarks" ≠ some (.jarr (b :: rest))) →
      (lookupField fields "type_").isSome →
      load_first_benchmark data = some data) ∧
    (∀ x rest, data = .jarr (x :: rest) → load_first_benchmark data = some x) ∧
    (∀ fields, data = .jobj fields →
      (∀ b rest, lookupField fields "benchmarks" ≠ some (.jarr (b :: rest))) →
      lookupField fields "type_" = none →
      load_first_benchmark data = none) ∧
    (data = .jarr [] → load_first_benchmark data = none) ∧
    ((∀ fields, data ≠ .jobj fields) → (∀ xs, data ≠ .jarr xs) →
      load_first_benchmark data = none) := by
  refine ⟨?_, ?_, ?_, ?_, ?_, ?_⟩
  · rintro fields b rest rfl h
    simp [load_first_benchmark, h]
  · rintro fields rfl hnb ht
    simp only [load_first_benchmark]
    rcases hlb : lookupField fields "benchmarks" with _ | v
    · simp [ht]
    · cases v with
      | jarr xs =>
        cases xs with
        | nil => simp [ht]
        | cons b rest => exact absurd hlb (hnb b rest)
      | jnull => simp [ht]
      | jbool b => simp [ht]
      | jint n => simp [ht]
      | jfloat q => simp [ht]
      | jstr s => simp [ht]
      | jobj fs => simp [ht]
  · rintro x rest rfl
    simp [load_first_benchmark]
  · rintro fields rfl hnb ht
    simp only [load_first_benchmark]
    rcases hlb : lookupField fields "benchmarks" with _ | v
    · simp [ht]
    · cases v with
      | jarr xs =>
        cases xs with
        | nil => simp [ht]
        | cons b rest => exact absurd hlb (hnb b rest)
      | jnull => simp [ht]
      | jbool b => simp [ht]
      | jint n => simp [ht]
      | jfloat q => simp [ht]
      | jstr s => simp [ht]
      | jobj fs => simp [ht]
  · rintro rfl
    simp [load_first_benchmark]
  · intro hno hnl
    cases data with
    | jobj fields => exact absurd rfl (hno fields)
    | jarr xs => exact absurd rfl (hnl xs)
    | jnull => simp [load_first_benchmark]
    | jbool b => simp [load_first_benchmark]
    | jint n => simp [load_first_benchmark]
    | jfloat q => simp [load_first_benchmark]
    | jstr s => simp [load_first_benchmark]

/-- Witness for C3: rule (a) fires on a concrete two-key object. -/
theorem extractor_decision_order_witness :
    load_first_benchmark
      (.jobj [("benchmarks", .jarr [.jint 7]), ("type_", .jstr "x")]) =
      some (.jint 7) :=
  (extractor_decision_order _).1 [("benchmarks", .jarr [.jint 7]), ("type_", .jstr "x")]
    (.jint 7) [] rfl (by decide)

/-- Claim-side read of `record.args.profile`'s field `fld`, total: `none`
when any step of the path is absent or not a mapping. -/
def profileFieldOf (b : Rec) (fld : String) : Option JVal :=
  match lookupField b "args" with
  | some (.jobj afs) =>
    match lookupField afs "profile" with
    | some (.jobj pfs) => lookupField pfs fld
    | _ => none
  | _ => none

/-- Claim-side read of `record.args.strategy`'s field `fld`. -/
def strategyFieldOf (b : Rec) (fld : String) : Option JVal :=
  match lookupField b "args" with
  | some (.jobj afs) =>
    match lookupField afs "strategy" with
    | some (.jobj sfs) => lookupField sfs fld
    | _ => none
  | _ => none

/-- Modelled from the words of claim C1: a field whose value is a list
contributes its elements, a field that is present but not a list
contributes itself as one element, an absent field contributes
nothing. -/
def claimContrib : Option JVal → List JVal
  | none => []
  | some (.jarr xs) => xs
  | some v => [v]

/-- Modelled from the words of claim C1: the running list of one tracked
field, scanning records in order. -/
def claimFieldList (bs : List Rec) (fld : String) : List JVal :=
  (bs.map (fun b => claimContrib (profileFieldOf b fld))).join

/-- Modelled from the words of claim C1: the `streams` running list, with
the fallback to `args.strategy.streams` when `profile.streams` is
absent. -/
def claimStreamsList (bs : List Rec) : List JVal :=
  (bs.map (fun b =>
    match profileFieldOf b "streams" with
    | some v => claimContrib (some v)
    | none => claimContrib (strategyFieldOf b "streams"))).join

/-- Claim C1 as one proposition: whenever the collection loop completes,
the four running lists are the ones described by the claim. -/
def C1Statement : Prop :=
  ∀ (bs : List Rec) (L : SweepLists), collectLists bs = .ok L →
    L.measured_rates = claimFieldList bs "measured_rates" ∧
    L.measured_concurrencies = claimFieldList bs "measured_concurrencies" ∧
    L.streams = claimStreamsList bs ∧
    L.strategy_types = claimFieldList bs "strategy_types"

/-- The amended contribution: decoded JSON `null` is Python `None`, so a
null-valued field contributes nothing, exactly like an absent one. -/
def claimContribAmended : Option JVal → List JVal
  | none => []
  | some .jnull => []
  | some (.jarr xs) => xs
  | some v => [v]

/-- One record's amended contribution to a tracked field. -/
def perRecField (b : Rec) (fld : String) : List JVal :=
  claimContribAmended (profileFieldOf b fld)

/-- One record's amended contribution to `streams`: the fallback to
`args.strategy.streams` fires when `profile.streams` is absent or
null. -/
def perRecStreams (b : Rec) : List JVal :=
  match profileFieldOf b "streams" with
  | some v =>
    if v = .jnull then claimContribAmended (strategyFieldOf b "streams")
    else claimContribAmended (some v)
  | none => claimContribAmended (strategyFieldOf b "streams")

def claimFieldListAmended (bs : List Rec) (fld : String) : List JVal :=
  (bs.map (fun b => perRecField b fld)).join

def claimStreamsListAmended (bs : List Rec) : List JVal :=
  (bs.map perRecStreams).join

theorem contrib_getD_null (o : Option JVal) :
    contrib (o.getD .jnull) = claimContribAmended o := by
  rcases o with _ | v
  · rfl
  · cases v <;> rfl


theorem contrib_null : contrib .jnull = [] := rfl

theorem claimContribAmended_none : claimContribAmended none = [] := rfl

theorem lookupField_nil (k : String) : lookupField [] k = none := rfl

theorem contrib_eq_amended_of_ne (v : JVal) (h : v ≠ .jnull) :
    contrib v = claimContribAmended (some v) := by
  cases v <;> simp_all [contrib, claimContribAmended]

theorem recordSweep_fields (b : Rec)
    (t : List JVal × List JVal × List JVal × List JVal)
    (h : recordSweep b = .ok t) :
    t = (perRecField b "measured_rates", perRecField b "measured_concurrencies",
         perRecStreams b, perRecField b "strategy_types") := by
  simp only [recordSweep, bind, Except.bind, pure, Except.pure] at h
  rcases hargs : lookupField b "args" with _ | av
  · simp only [hargs, Option.getD_none, pyGetN, pyGetD, lookupField_nil] at h
    simp at h
    subst h
    simp [perRecField, perRecStreams, profileFieldOf, strategyFieldOf, hargs,
      contrib_null, claimContribAmended_none]
  · cases av with
    | jobj afs =>
      simp only [hargs, Option.getD_some, pyGetN, pyGetD] at h
      rcases hprof : lookupField afs "profile" with _ | pv
      · -- profile absent: reads on the default empty dict, streams falls back
        simp only [hprof, Option.getD_none, lookupField_nil] at h
        rcases hstrat : lookupField afs "strategy" with _ | sv
        · simp only [hstrat, Option.getD_none, lookupField_nil] at h
          simp at h
          subst h
          simp [perRecField, perRecStreams, profileFieldOf, strategyFieldOf,
            hargs, hprof, hstrat, contrib_null, claimContribAmended_none]
        · cases sv with
          | jobj sfs =>
            simp only [hstrat, Option.getD_some] at h
            simp at h
            subst h
            simp [perRecField, perRecStreams, profileFieldOf, strategyFieldOf,
              hargs, hprof, hstrat, contrib_getD_null, contrib_null, claimContribAmended_none]
          | jnull => simp [hstrat] at h
          | jbool x => simp [hstrat] at h
          | jint x => simp [hstrat] at h
          | jfloat x => simp [hstrat] at h
          | jstr x => simp [hstrat] at h
          | jarr x => simp [hstrat] at h
      · cases pv with
        | jobj pfs =>
          simp only [hprof, Option.getD_some] at h
          rcases hs : lookupField pfs "streams" with _ | sv0
          · -- streams absent in profile: fallback
            simp only [hs, Option.getD_none] at h
            rcases hstrat : lookupField afs "strategy" with _ | sv
            · simp only [hstrat, Option.getD_none, lookupField_nil] at h
              simp at h
              subst h
              simp [perRecField, perRecStreams, profileFieldOf, strategyFieldOf,
                hargs, hprof, hs, hstrat, contrib_getD_null, contrib_null, claimContribAmended_none]
            · cases sv with
              | jobj sfs =>
                simp only [hstrat, Option.getD_some] at h
                simp at h
                subst h
                simp [perRecField, perRecStreams, profileFieldOf, strategyFieldOf,
                  hargs, hprof, hs, hstrat, contrib_getD_null, contrib_null, claimContribAmended_none]
              | jnull => simp [hstrat] at h
              | jbool x => simp [hstrat] at h
              | jint x => simp [hstrat] at h
              | jfloat x => simp [hstrat] at h
              | jstr x => simp [hstrat] at h
              | jarr x => simp [hstrat] at h
          · -- streams present in profile
            simp only [hs, Option.getD_some] at h
            by_cases hnull : sv0 = JVal.jnull
            · subst hnull
              simp only [if_pos rfl] at h
              rcases hstrat : lookupField afs "strategy" with _ | sv
              · simp only [hstrat, Option.getD_none, lookupField_nil] at h
                simp at h
                subst h
                simp [perRecField, perRecStreams, profileFieldOf, strategyFieldOf,
                  hargs, hprof, hs, hstrat, contrib_getD_null, contrib_null, claimContribAmended_none]
              · cases sv with
                | jobj sfs =>
                  simp only [hstrat, Option.getD_some] at h
                  simp at h
                  subst h
                  simp [perRecField, perRecStreams, profileFieldOf, strategyFieldOf,
                    hargs, hprof, hs, hstrat, contrib_getD_null, contrib_null, claimContribAmended_none]
                | jnull => simp [hstrat] at h
                | jbool x => simp [hstrat] at h
                | jint x => simp [hstrat] at h
                | jfloat x => simp [hstrat] at h
                | jstr x => simp [hstrat] at h
                | jarr x => simp [hstrat] at h
            · simp only [if_neg hnull] at h
              simp at h
              subst h
              simp [perRecField, perRecStreams, profileFieldOf, strategyFieldOf,
                hargs, hprof, hs, hnull, contrib_getD_null, contrib_null, claimContribAmended_none,
                contrib_eq_amended_of_ne sv0 hnull]
        | jnull => simp [hprof] at h
        | jbool x => simp [hprof] at h
        | jint x => simp [hprof] at h
        | jfloat x => simp [hprof] at h
        | jstr x => simp [hprof] at h
        | jarr x => simp [hprof] at h
    | jnull => simp [hargs, pyGetN, pyGetD] at h
    | jbool x => simp [hargs, pyGetN, pyGetD] at h
    | jint x => simp [hargs, pyGetN, pyGetD] at h
    | jfloat x => simp [hargs, pyGetN, pyGetD] at h
    | jstr x => simp [hargs, pyGetN, pyGetD] at h
    | jarr x => simp [hargs, pyGetN, pyGetD] at h

instance {e a : Type _} [DecidableEq e] [DecidableEq a] : DecidableEq (Except e a) := fun x y =>
  match x, y with
  | .error u, .error v =>
    if h : u = v then isTrue (congrArg _ h)
    else isFalse (fun hc => h (Except.error.inj hc))
  | .ok u, .ok v =>
    if h : u = v then isTrue (congrArg _ h)
    else isFalse (fun hc => h (Except.ok.inj hc))
  | .error _, .ok _ => isFalse (fun hc => Except.noConfusion hc)
  | .ok _, .error _ => isFalse (fun hc => Except.noConfusion hc)

theorem collect_go (bs : List Rec) (acc L : SweepLists)
    (h : bs.foldlM sweepStep acc = .ok L) :
    L = ⟨acc.measured_rates ++ claimFieldListAmended bs "measured_rates",
         acc.measured_concurrencies ++ claimFieldListAmended bs "measured_concurrencies",
         acc.streams ++ claimStreamsListAmended bs,
         acc.strategy_types ++ claimFieldListAmended bs "strategy_types"⟩ := by
  induction bs generalizing acc with
  | nil =>
    simp only [List.foldlM_nil, pure, Except.pure, Except.ok.injEq] at h
    subst h
    simp [claimFieldListAmended, claimStreamsListAmended]
  | cons b bs ih =>
    rw [List.foldlM_cons] at h
    rcases hrs : recordSweep b with e | t
    · simp [sweepStep, hrs, bind, Except.bind] at h
    · simp only [sweepStep, hrs, bind, Except.bind, pure, Except.pure] at h
      obtain ⟨mr, mc, s, st⟩ := t
      have ht := recordSweep_fields b (mr, mc, s, st) hrs
      simp only [Prod.mk.injEq] at ht
      obtain ⟨h1, h2, h3, h4⟩ := ht
      subst h1; subst h2; subst h3; subst h4
      have := ih _ h
      subst this
      simp [claimFieldListAmended, claimStreamsListAmended, List.append_assoc]

/-- Claim C1 (amended): whenever the collection loop of lines 64-92
completes, each of the four running lists is obtained by scanning records
in order and reading the field from `record.args.profile`: a list value
contributes its elements in order, a present non-list non-null value
contributes itself as a single element, and an absent or null value
contributes nothing — except `streams`, for which, when `profile.streams`
is absent or null, `record.args.strategy.streams` is used with the same
handling (a record with no `profile.streams` but `args.strategy.streams
== 5` contributes `5`). -/
theorem aggregation_running_lists_amended (bs : List Rec) (L : SweepLists)
    (h : collectLists bs = .ok L) :
    L.measured_rates = claimFieldListAmended bs "measured_rates" ∧
    L.measured_concurrencies = claimFieldListAmended bs "measured_concurrencies" ∧
    L.streams = claimStreamsListAmended bs ∧
    L.strategy_types = claimFieldListAmended bs "strategy_types" := by
  have hgo := collect_go bs ⟨[], [], [], []⟩ L h
  subst hgo
  simp

/-- Counterexample to C1 as stated: a record whose
`profile.measured_rates` is an explicit JSON `null` has the field present
and not a list, so the claim appends it as an element, but the code's
`is not None` check contributes nothing. -/
theorem aggregation_null_scalar_counterexample : ¬ C1Statement := by
  intro hc
  have h := hc [[("args", JVal.jobj [("profile",
      JVal.jobj [("measured_rates", JVal.jnull)])])]] ⟨[], [], [], []⟩ (by decide)
  exact absurd h.1 (by decide)

/-- Witness for the amended C1 at scenario C: `profile.streams` absent
and `args.strategy.streams == 5` contributes `5` to the running
`streams` list. -/
theorem aggregation_running_lists_amended_witness :
    collectLists [[("type_", JVal.jstr "x"),
        ("args", JVal.jobj [("profile", JVal.jobj []),
          ("strategy", JVal.jobj [("streams", JVal.jint 5)])])]] =
      .ok ⟨[], [], [JVal.jint 5], []⟩ ∧
    claimStreamsListAmended [[("type_", JVal.jstr "x"),
        ("args", JVal.jobj [("profile", JVal.jobj []),
          ("strategy", JVal.jobj [("streams", JVal.jint 5)])])]] = [JVal.jint 5] :=
  ⟨by decide,
   ((aggregation_running_lists_amended _ ⟨[], [], [JVal.jint 5], []⟩ (by decide)).2.2.1).symm⟩

theorem lookup_setKey_self (fs : Rec) (k : String) (v : JVal) :
    lookupField (setKey fs k v) k = some v := by
  induction fs with
  | nil => simp [setKey, lookupField, List.find?_cons]
  | cons p ps ih =>
    by_cases hpk : p.1 == k
    · simp [setKey, hpk, lookupField, List.find?_cons]
    · simp only [setKey, hpk, Bool.false_eq_true, if_false]
      simpa [lookupField, List.find?_cons, hpk] using ih

theorem lookup_setKey_other (fs : Rec) (k k' : String) (v : JVal)
    (hne : (k' == k) = false) :
    lookupField (setKey fs k v) k' = lookupField fs k' := by
  have h1 : k' ≠ k := beq_eq_false_iff_ne.mp hne
  have hkk : (k == k') = false := beq_eq_false_iff_ne.mpr (fun hc => h1 hc.symm)
  induction fs with
  | nil => simp [setKey, lookupField, List.find?_cons, hkk]
  | cons p ps ih =>
    by_cases hpk : p.1 == k
    · have hp : (p.1 == k') = false := by
        have : p.1 = k := by simpa using hpk
        rw [this]
        exact hkk
      simp [setKey, hpk, lookupField, List.find?_cons, hkk, hp]
    · simp only [setKey, hpk, Bool.false_eq_true, if_false]
      by_cases hp : p.1 == k'
      · simp [lookupField, List.find?_cons, hp]
      · simpa [lookupField, List.find?_cons, hp] using ih

theorem mapM_ok_forall2 {α β : Type _} (f : α → Except PyErr β)
    (l : List α) (l' : List β) (h : l.mapM f = .ok l') :
    List.Forall₂ (fun x y => f x = .ok y) l l' := by
  rw [← List.mapM'_eq_mapM] at h
  induction l generalizing l' with
  | nil =>
    simp only [List.mapM', pure, Except.pure, Except.ok.injEq] at h
    subst h
    exact List.Forall₂.nil
  | cons x xs ih =>
    simp only [List.mapM', bind, Except.bind] at h
    rcases hf : f x with e | y
    · simp [hf] at h
    · simp only [hf] at h
      rcases hm : xs.mapM' f with e | ys
      · simp [hm] at h
      · simp only [hm, pure, Except.pure, Except.ok.injEq] at h
        subst h
        exact List.Forall₂.cons hf (ih ys hm)

theorem collectBenchmarks_count (files : List InputFile) (bs : List Rec)
    (h : collectBenchmarks files = .ok bs) :
    bs.length = (files.filter
      (fun f => (f.parsed.bind load_first_benchmark).isSome)).length := by
  induction files generalizing bs with
  | nil =>
    simp only [collectBenchmarks, Except.ok.injEq] at h
    subst h
    rfl
  | cons f fs ih =>
    rcases hb : f.parsed.bind load_first_benchmark with _ | b
    · simp only [collectBenchmarks, hb] at h
      simpa [List.filter_cons, hb] using ih bs h
    · simp only [collectBenchmarks, hb] at h
      rcases hd : pyDict b with e | d
      · simp [hd] at h
      · simp only [hd] at h
        rcases hrest : collectBenchmarks fs with e | rest
        · simp [hrest] at h
        · simp only [hrest, Except.ok.injEq] at h
          subst h
          simp [List.filter_cons, hb, ih rest hrest]

theorem collectBenchmarks_all_none (files : List InputFile)
    (h : ∀ f ∈ files, f.parsed.bind load_first_benchmark = none) :
    collectBenchmarks files = .ok [] := by
  induction files with
  | nil => rfl
  | cons f fs ih =>
    simp only [collectBenchmarks, h f (List.mem_cons_self _ _)]
    exact ih (fun g hg => h g (List.mem_cons_of_mem _ hg))

/-- Claim C8: if no input file yields an extractable record, the merge
aborts with the NoRecordsFound outcome and its descriptive message, and
returns no output document at all (the caller writes the output file only
from a returned document, so nothing, not even partial output, is
written). -/
theorem no_records_fatal (input_dir : String) (files : List InputFile)
    (h : ∀ f ∈ files, f.parsed.bind load_first_benchmark = none) :
    merge_benchmark_files input_dir files =
      .error (.noRecords ("No benchmark entries found in " ++ input_dir)) := by
  simp [merge_benchmark_files, collectBenchmarks_all_none files h,
    Except.mapError, bind, Except.bind, List.isEmpty]

/-- Witness for C8, scenario B: a directory holding only a `[]` file and
a `\x7b\x7d` file fails with NoRecordsFound. -/
theorem no_records_fatal_witness :
    merge_benchmark_files "d" [⟨"d/a", some (.jarr [])⟩, ⟨"d/b", some (.jobj [])⟩] =
      .error (.noRecords "No benchmark entries found in d") :=
  no_records_fatal "d" [⟨"d/a", some (.jarr [])⟩, ⟨"d/b", some (.jobj [])⟩]
    (by decide)

theorem merge_ok_parts (d : String) (files : List InputFile) (out : JVal)
    (hm : merge_benchmark_files d files = .ok out) :
    ∃ bs cp outs, collectBenchmarks files = .ok bs ∧ bs.isEmpty = false ∧
      combined_profile bs = .ok cp ∧ bs.mapM (attachProfile cp) = .ok outs ∧
      out = .jobj [("benchmarks", .jarr ((outs.map
        (fun b => setKey b "__combined_from"
          (.jstr (basename (rstripSlashes d))))).map JVal.jobj))] := by
  simp only [merge_benchmark_files, bind, Except.bind] at hm
  rcases hbs : collectBenchmarks files with e | bs
  · simp [hbs, Except.mapError] at hm
  · simp only [hbs, Except.mapError] at hm
    by_cases hemp : bs.isEmpty
    · simp [hemp] at hm
    · simp only [hemp, Bool.false_eq_true, if_false] at hm
      rcases hcp : combined_profile bs with e | cp
      · simp [hcp, Except.mapError] at hm
      · simp only [hcp, Except.mapError] at hm
        rcases houts : bs.mapM (attachProfile cp) with e | outs
        · rw [houts] at hm
          simp [Except.mapError] at hm
        · rw [houts] at hm
          simp only [Except.mapError, pure, Except.pure, Except.ok.injEq] at hm
          exact ⟨bs, cp, outs, rfl, by simpa using hemp, hcp, houts, hm.symm⟩

theorem forall2_mem_right {α β : Type _} {R : α → β → Prop}
    {l : List α} {l' : List β} (h : List.Forall₂ R l l') :
    ∀ y ∈ l', ∃ x ∈ l, R x y := by
  induction h with
  | nil => simp
  | cons hr _ ih =>
    intro y hy
    rcases List.mem_cons.mp hy with rfl | hy
    · exact ⟨_, List.mem_cons_self _ _, hr⟩
    · rcases ih y hy with ⟨x, hx, hxy⟩
      exact ⟨x, List.mem_cons_of_mem _ hx, hxy⟩

/-- Claim C5: on success, the output `benchmarks` list holds exactly one
record per input file that yielded an extractable record; skipped files
contribute nothing. -/
theorem output_record_count (d : String) (files : List InputFile) (out : JVal)
    (hm : merge_benchmark_files d files = .ok out) :
    ∃ recs : List JVal, out = .jobj [("benchmarks", .jarr recs)] ∧
      recs.length = (files.filter
        (fun f => (f.parsed.bind load_first_benchmark).isSome)).length := by
  obtain ⟨bs, cp, outs, hbs, _, _, houts, hout⟩ := merge_ok_parts d files out hm
  refine ⟨_, hout, ?_⟩
  have h1 := (mapM_ok_forall2 _ _ _ houts).length_eq
  have h2 := collectBenchmarks_count files bs hbs
  simp [← h1, h2]

/-- Witness for C5: one good file and one skipped `\x7b\x7d` file give one
output record. -/
theorem output_record_count_witness :
    ∃ recs : List JVal,
      JVal.jobj [("benchmarks", JVal.jarr
        [JVal.jobj [("type_", JVal.jstr "x"),
          ("__source_file", JVal.jstr "a"),
          ("args", JVal.jobj [("profile", JVal.jobj
            [("type_", JVal.jstr "concurrent"),
             ("completed_strategies", JVal.jint 1)])]),
          ("__combined_from", JVal.jstr "d")]])] =
        .jobj [("benchmarks", .jarr recs)] ∧
      recs.length = ([⟨"d/a", some (.jobj [("type_", .jstr "x")])⟩,
        ⟨"d/b", some (.jobj [])⟩].filter
          (fun f : InputFile =>
            (f.parsed.bind load_first_benchmark).isSome)).length :=
  output_record_count "d"
    [⟨"d/a", some (.jobj [("type_", .jstr "x")])⟩, ⟨"d/b", some (.jobj [])⟩]
    _ (by decide)

/-- The `args.profile` value of a record. -/
def recProfile (r : Rec) : Option JVal :=
  match lookupField r "args" with
  | some (.jobj afs) => lookupField afs "profile"
  | _ => none

theorem attachProfile_profile (cp b o : Rec)
    (h : attachProfile cp b = .ok o) :
    recProfile o = some (.jobj cp) := by
  unfold attachProfile at h
  rcases hargs : lookupField b "args" with _ | av
  · simp only [hargs, Except.ok.injEq] at h
    subst h
    unfold recProfile
    rw [lookup_setKey_self]
    simp [lookupField, List.find?_cons]
  · cases av with
    | jobj afs =>
      simp only [hargs, Except.ok.injEq] at h
      subst h
      unfold recProfile
      rw [lookup_setKey_self]
      show lookupField (setKey afs "profile" (.jobj cp)) "profile" = some (.jobj cp)
      rw [lookup_setKey_self]
    | jnull => simp [hargs] at h
    | jbool x => simp [hargs] at h
    | jint x => simp [hargs] at h
    | jfloat x => simp [hargs] at h
    | jstr x => simp [hargs] at h
    | jarr x => simp [hargs] at h

/-- Claim C4: in the output of one successful run, every record's
`args.profile` equals the combined profile synthesized for that run, and
hence all records' `args.profile` values are structurally identical. -/
theorem output_profiles_all_equal (d : String) (files : List InputFile)
    (bs : List Rec) (cp : Rec) (out : JVal)
    (hbs : collectBenchmarks files = .ok bs)
    (hcp : combined_profile bs = .ok cp)
    (hm : merge_benchmark_files d files = .ok out) :
    ∃ recs : List Rec,
      out = .jobj [("benchmarks", .jarr (recs.map JVal.jobj))] ∧
      (∀ r ∈ recs, recProfile r = some (.jobj cp)) ∧
      (∀ r1 ∈ recs, ∀ r2 ∈ recs, recProfile r1 = recProfile r2) := by
  obtain ⟨bs', cp', outs, hbs', hne, hcp', houts, hout⟩ := merge_ok_parts d files out hm
  rw [hbs] at hbs'
  injection hbs' with hb
  subst hb
  rw [hcp] at hcp'
  injection hcp' with hc
  subst hc
  have hA : ∀ r ∈ outs.map (fun b => setKey b "__combined_from"
      (.jstr (basename (rstripSlashes d)))), recProfile r = some (.jobj cp) := by
    intro r hr
    rcases List.mem_map.mp hr with ⟨o, ho, rfl⟩
    obtain ⟨x, hx, hxo⟩ := forall2_mem_right (mapM_ok_forall2 _ _ _ houts) o ho
    have hp := attachProfile_profile cp x o hxo
    unfold recProfile at hp ⊢
    rw [lookup_setKey_other o "__combined_from" "args" _ (by decide)]
    exact hp
  exact ⟨_, hout, hA, fun r1 h1 r2 h2 => by rw [hA r1 h1, hA r2 h2]⟩

/-- Witness for C4 at a concrete one-record input. -/
theorem output_profiles_all_equal_witness :
    ∃ recs : List Rec,
      JVal.jobj [("benchmarks", JVal.jarr
        [JVal.jobj [("type_", JVal.jstr "x"),
          ("__source_file", JVal.jstr "a"),
          ("args", JVal.jobj [("profile", JVal.jobj
            [("type_", JVal.jstr "concurrent"),
             ("completed_strategies", JVal.jint 1)])]),
          ("__combined_from", JVal.jstr "d")]])] =
        .jobj [("benchmarks", .jarr (recs.map JVal.jobj))] ∧
      (∀ r ∈ recs, recProfile r = some (.jobj
        [("type_", JVal.jstr "concurrent"),
         ("completed_strategies", JVal.jint 1)])) ∧
      (∀ r1 ∈ recs, ∀ r2 ∈ recs, recProfile r1 = recProfile r2) :=
  output_profiles_all_equal "d"
    [⟨"d/a", some (.jobj [("type_", .jstr "x")])⟩, ⟨"d/b", some (.jobj [])⟩]
    [[("type_", .jstr "x"), ("__source_file", .jstr "a")]]
    [("type_", .jstr "concurrent"), ("completed_strategies", .jint 1)]
    _ (by decide) (by decide) (by decide)

/-- Claim C9 as one proposition: within the merge, the only fatal outcome
is NoRecordsFound (the missing-input-directory check happens in `main`
before the merge is entered); every per-file problem is recovered by
skipping the file. -/
def C9Statement : Prop :=
  ∀ (d : String) (files : List InputFile) (e : MergeErr),
    merge_benchmark_files d files = .error e → ∃ msg, e = .noRecords msg

/-- Counterexample to C9 as stated: a single file containing `[5]` makes
the extractor yield the number `5`; `dict(5)` on line 51 then raises an
uncaught TypeError that aborts the whole run. -/
theorem single_file_abort_counterexample : ¬ C9Statement := by
  intro hc
  obtain ⟨msg, hmsg⟩ := hc "d" [⟨"d/a", some (.jarr [.jint 5])⟩]
    (.pyErr .typeError) (by decide)
  cases hmsg

/-- Shape of a stored record that the aggregation and re-attachment steps
handle without raising: `args` absent or a dict whose `profile` and
`strategy` values, when present, are dicts (null or any other non-dict
value there makes the `.get` calls of lines 66, 82 or the item assignment
of line 135 raise). -/
def goodArgs (fs : Rec) : Bool :=
  match lookupField fs "args" with
  | none => true
  | some (.jobj afs) =>
    (match lookupField afs "profile" with
     | none => true
     | some (.jobj _) => true
     | some _ => false) &&
    (match lookupField afs "strategy" with
     | none => true
     | some (.jobj _) => true
     | some _ => false)
  | some _ => false

/-- An extracted record that the whole pipeline handles without raising:
a dict with a good `args` shape. -/
def goodRecord : JVal → Bool
  | .jobj bfs => goodArgs bfs
  | _ => false

theorem goodArgs_setKey_source (fs : Rec) (v : JVal)
    (h : goodArgs fs = true) :
    goodArgs (setKey fs "__source_file" v) = true := by
  unfold goodArgs at h ⊢
  rw [lookup_setKey_other fs "__source_file" "args" v (by decide)]
  exact h

theorem recordSweep_ok (b : Rec) (h : goodArgs b = true) :
    ∃ t, recordSweep b = .ok t := by
  unfold goodArgs at h
  simp only [recordSweep, bind, Except.bind, pure, Except.pure]
  rcases hargs : lookupField b "args" with _ | av
  · simp only [hargs, Option.getD_none, pyGetN, pyGetD, lookupField_nil]
    exact ⟨_, rfl⟩
  · simp only [hargs] at h
    cases av with
    | jobj afs =>
      simp only [hargs, Option.getD_some, pyGetN, pyGetD, Bool.and_eq_true] at h ⊢
      rcases hprof : lookupField afs "profile" with _ | pv
      · simp only [hprof, Option.getD_none, lookupField_nil]
        rcases hstrat : lookupField afs "strategy" with _ | sv
        · simp only [hstrat, Option.getD_none, lookupField_nil]
          exact ⟨_, rfl⟩
        · rw [hstrat] at h
          cases sv with
          | jobj sfs =>
            simp only [hstrat, Option.getD_some]
            exact ⟨_, rfl⟩
          | jnull => simp at h
          | jbool x => simp at h
          | jint x => simp at h
          | jfloat x => simp at h
          | jstr x => simp at h
          | jarr x => simp at h
      · rw [hprof] at h
        cases pv with
        | jobj pfs =>
          simp only [hprof, Option.getD_some]
          rcases hs : lookupField pfs "streams" with _ | sv0
          · simp only [hs, Option.getD_none, if_pos rfl]
            rcases hstrat : lookupField afs "strategy" with _ | sv
            · simp only [hstrat, Option.getD_none, lookupField_nil]
              exact ⟨_, rfl⟩
            · rw [hstrat] at h
              cases sv with
              | jobj sfs =>
                simp only [hstrat, Option.getD_some]
                exact ⟨_, rfl⟩
              | jnull => simp at h
              | jbool x => simp at h
              | jint x => simp at h
              | jfloat x => simp at h
              | jstr x => simp at h
              | jarr x => simp at h
          · simp only [hs, Option.getD_some]
            by_cases hnull : sv0 = JVal.jnull
            · subst hnull
              simp only [if_pos rfl]
              rcases hstrat : lookupField afs "strategy" with _ | sv
              · simp only [hstrat, Option.getD_none, lookupField_nil]
                exact ⟨_, rfl⟩
              · rw [hstrat] at h
                cases sv with
                | jobj sfs =>
                  simp only [hstrat, Option.getD_some]
                  exact ⟨_, rfl⟩
                | jnull => simp at h
                | jbool x => simp at h
                | jint x => simp at h
                | jfloat x => simp at h
                | jstr x => simp at h
                | jarr x => simp at h
            · simp only [if_neg hnull]
              exact ⟨_, rfl⟩
        | jnull => simp at h
        | jbool x => simp at h
        | jint x => simp at h
        | jfloat x => simp at h
        | jstr x => simp at h
        | jarr x => simp at h
    | jnull => simp at h
    | jbool x => simp at h
    | jint x => simp at h
    | jfloat x => simp at h
    | jstr x => simp at h
    | jarr x => simp at h

theorem attachProfile_ok (cp b : Rec) (h : goodArgs b = true) :
    ∃ o, attachProfile cp b = .ok o := by
  unfold goodArgs at h
  unfold attachProfile
  rcases hargs : lookupField b "args" with _ | av
  · exact ⟨_, rfl⟩
  · simp only [hargs] at h
    cases av with
    | jobj afs => exact ⟨_, rfl⟩
    | jnull => simp at h
    | jbool x => simp at h
    | jint x => simp at h
    | jfloat x => simp at h
    | jstr x => simp at h
    | jarr x => simp at h

theorem collectLists_ok (bs : List Rec) (h : ∀ r ∈ bs, goodArgs r = true) :
    ∃ L, collectLists bs = .ok L := by
  unfold collectLists
  suffices hgen : ∀ acc, ∃ L, bs.foldlM sweepStep acc = .ok L from hgen _
  induction bs with
  | nil => exact fun acc => ⟨acc, rfl⟩
  | cons r rs ih =>
    intro acc
    obtain ⟨t, ht⟩ := recordSweep_ok r (h r (List.mem_cons_self _ _))
    obtain ⟨mr, mc, s, st⟩ := t
    obtain ⟨L, hL⟩ := ih (fun x hx => h x (List.mem_cons_of_mem _ hx))
      ⟨acc.measured_rates ++ mr, acc.measured_concurrencies ++ mc,
       acc.streams ++ s, acc.strategy_types ++ st⟩
    refine ⟨L, ?_⟩
    rw [List.foldlM_cons]
    simp only [sweepStep, ht, bind, Except.bind, pure, Except.pure]
    exact hL

theorem mapM_attach_ok (cp : Rec) (bs : List Rec)
    (h : ∀ r ∈ bs, goodArgs r = true) :
    ∃ outs, bs.mapM (attachProfile cp) = .ok outs := by
  rw [← List.mapM'_eq_mapM]
  induction bs with
  | nil => exact ⟨[], rfl⟩
  | cons r rs ih =>
    obtain ⟨o, ho⟩ := attachProfile_ok cp r (h r (List.mem_cons_self _ _))
    obtain ⟨outs, houts⟩ := ih (fun x hx => h x (List.mem_cons_of_mem _ hx))
    refine ⟨o :: outs, ?_⟩
    simp [List.mapM', ho, houts, bind, Except.bind, pure, Except.pure]

theorem collectBenchmarks_good (files : List InputFile)
    (h : ∀ f ∈ files, ∀ b, f.parsed.bind load_first_benchmark = some b →
      goodRecord b = true) :
    ∃ bs, collectBenchmarks files = .ok bs ∧ ∀ r ∈ bs, goodArgs r = true := by
  induction files with
  | nil => exact ⟨[], rfl, by simp⟩
  | cons f fs ih =>
    obtain ⟨bs, hbs, hgood⟩ := ih (fun g hg => h g (List.mem_cons_of_mem _ hg))
    rcases hb : f.parsed.bind load_first_benchmark with _ | b
    · exact ⟨bs, by simp only [collectBenchmarks, hb, hbs], hgood⟩
    · have hgb := h f (List.mem_cons_self _ _) b hb
      cases b with
      | jobj bfs =>
        refine ⟨setKey bfs "__source_file" (.jstr (basename f.path)) :: bs, ?_, ?_⟩
        · simp only [collectBenchmarks, hb, pyDict, hbs]
        · intro r hr
          rcases List.mem_cons.mp hr with rfl | hr
          · exact goodArgs_setKey_source bfs _ (by simpa [goodRecord] using hgb)
          · exact hgood r hr
      | jnull => simp [goodRecord] at hgb
      | jbool x => simp [goodRecord] at hgb
      | jint x => simp [goodRecord] at hgb
      | jfloat x => simp [goodRecord] at hgb
      | jstr x => simp [goodRecord] at hgb
      | jarr x => simp [goodRecord] at hgb

/-- Claim C9 (amended): a file that is unreadable, unparseable, or of
unrecognized shape is skipped and the merge of the remaining files is
unchanged (the extractor itself is a total function), and when every
extracted record is a mapping whose `args` shape is good, the only fatal
outcome is NoRecordsFound; but a file whose extracted record is not a
mapping, or carries a bad `args` shape, raises an uncaught exception that
aborts the whole run (see the counterexample). -/
theorem per_file_errors_amended :
    (∀ (d : String) (f : InputFile) (fs : List InputFile),
      f.parsed.bind load_first_benchmark = none →
      merge_benchmark_files d (f :: fs) = merge_benchmark_files d fs) ∧
    (∀ (d : String) (files : List InputFile),
      (∀ f ∈ files, ∀ b, f.parsed.bind load_first_benchmark = some b →
        goodRecord b = true) →
      ∀ e, merge_benchmark_files d files = .error e →
        ∃ msg, e = .noRecords msg) := by
  constructor
  · intro d f fs hf
    unfold merge_benchmark_files
    rw [show collectBenchmarks (f :: fs) = collectBenchmarks fs by
      simp only [collectBenchmarks, hf]]
  · intro d files hgood e hm
    obtain ⟨bs, hbs, hbsgood⟩ := collectBenchmarks_good files hgood
    by_cases hemp : bs.isEmpty
    · simp only [merge_benchmark_files, hbs, Except.mapError, bind, Except.bind,
        hemp, if_true] at hm
      exact ⟨_, (Except.error.inj hm).symm⟩
    · exfalso
      obtain ⟨L, hL⟩ := collectLists_ok bs hbsgood
      have hcp : ∃ cp, combined_profile bs = .ok cp := by
        simp only [combined_profile, hL, bind, Except.bind, pure, Except.pure]
        exact ⟨_, rfl⟩
      obtain ⟨cp, hcp⟩ := hcp
      obtain ⟨outs, houts⟩ := mapM_attach_ok cp bs hbsgood
      have hloop : List.mapM.loop (attachProfile cp) bs [] = Except.ok outs := houts
      simp [merge_benchmark_files, hbs, hcp, houts, hloop, Except.mapError, bind,
        Except.bind, hemp, pure, Except.pure] at hm

/-- Witness for the amended C9: a skipped unparseable file leaves the
merge unchanged, and on a good-shaped input an error can only be
NoRecordsFound. -/
theorem per_file_errors_amended_witness :
    merge_benchmark_files "d" [⟨"d/bad", none⟩] = merge_benchmark_files "d" [] ∧
    ∃ msg, MergeErr.noRecords "No benchmark entries found in d" = .noRecords msg :=
  ⟨per_file_errors_amended.1 "d" ⟨"d/bad", none⟩ [] (by decide),
   per_file_errors_amended.2 "d" [] (by decide)
     (.noRecords "No benchmark entries found in d") (by decide)⟩

theorem ratCmp_swap (x y : Rat) : (ratCmp x y).swap = ratCmp y x := by
  unfold ratCmp
  rcases lt_trichotomy x y with h | h | h
  · simp [h, not_lt.mpr h.le, h.ne', Ordering.swap]
  · simp [h, lt_irrefl, Ordering.swap]
  · simp [h, not_lt.mpr h.le, h.ne', Ordering.swap]

theorem charListCmp_swap : ∀ (a b : List Char),
    (charListCmp a b).swap = charListCmp b a := by
  intro a
  induction a with
  | nil => intro b; cases b <;> rfl
  | cons c cs ih =>
    intro b
    cases b with
    | nil => rfl
    | cons d ds =>
      simp only [charListCmp]
      rcases Nat.lt_trichotomy c.toNat d.toNat with h | h | h
      · simp [h, Nat.lt_asymm h, Ordering.swap]
      · simp [h, Nat.lt_irrefl, ih ds]
      · simp [h, Nat.lt_asymm h, Ordering.swap]

theorem strCmp_swap (x y : String) : (strCmp x y).swap = strCmp y x :=
  charListCmp_swap x.toList y.toList

theorem pyCompareList_swap (xs ys : List JVal)
    (h : ∀ x ∈ xs, ∀ b, pyCompare b x = (pyCompare x b).map Ordering.swap) :
    pyCompareList ys xs = (pyCompareList xs ys).map Ordering.swap := by
  induction xs generalizing ys with
  | nil => cases ys <;> simp [pyCompareList, Except.map, Ordering.swap]
  | cons x xs ih =>
    cases ys with
    | nil => simp [pyCompareList, Except.map, Ordering.swap]
    | cons y ys =>
      simp only [pyCompareList]
      rw [h x (List.mem_cons_self _ _) y]
      rcases pyCompare x y with e | o
      · simp [Except.map]
      · cases o with
        | eq =>
          simp only [Except.map, Ordering.swap]
          exact ih ys (fun z hz b => h z (List.mem_cons_of_mem _ hz) b)
        | lt => simp [Except.map, Ordering.swap]
        | gt => simp [Except.map, Ordering.swap]

theorem pyCompare_def (a b : JVal) : pyCompare a b =
    match a, b with
    | .jstr s, .jstr t => .ok (strCmp s t)
    | .jarr xs, .jarr ys => pyCompareList xs ys
    | a, b =>
      match numVal a, numVal b with
      | some x, some y => .ok (ratCmp x y)
      | _, _ => .error .typeError := by
  cases a <;> cases b <;> rfl

theorem pyCompare_swap : ∀ (a b : JVal),
    pyCompare b a = (pyCompare a b).map Ordering.swap := by
  have main : ∀ (n : Nat) (a b : JVal), sizeOf a ≤ n →
      pyCompare b a = (pyCompare a b).map Ordering.swap := by
    intro n
    induction n with
    | zero =>
      intro a b h
      exfalso
      cases a <;> simp_arith at h
    | succ n ih =>
      intro a b h
      rw [pyCompare_def a b, pyCompare_def b a]
      cases a <;> cases b <;> simp only [numVal, Except.map] <;> try rfl
      case jarr.jarr xs ys =>
        have hxs : sizeOf xs ≤ n := by simp_arith at h; omega
        exact pyCompareList_swap xs ys (fun x hx b =>
          ih x b (by have := List.sizeOf_lt_of_mem hx; omega))
      all_goals try (rw [ratCmp_swap])
      all_goals rw [strCmp_swap]
  intro a b
  exact main (sizeOf a) a b (le_refl _)

instance (a b : JVal) : Decidable (pyComparable a b) :=
  match hc : pyCompare a b with
  | .ok o => isTrue ⟨o, hc⟩
  | .error e => isFalse (by
      rintro ⟨o, ho⟩
      rw [hc] at ho
      cases ho)

/-- Every pair drawn from the list can be compared without a TypeError. -/
def mutuallyComparable (l : List JVal) : Prop :=
  ∀ a ∈ l, ∀ b ∈ l, pyComparable a b

theorem pyLe_of_swap_ne_lt (x y : JVal) (o : Ordering)
    (ho : pyCompare x y = .ok o) (hne : o ≠ .lt) : pyLe y x := by
  have hs := pyCompare_swap x y
  rw [ho] at hs
  cases o with
  | lt => exact absurd rfl hne
  | eq => exact Or.inr (by simpa [Except.map, Ordering.swap] using hs)
  | gt => exact Or.inl (by simpa [Except.map, Ordering.swap] using hs)

theorem pyInsert_ok (x : JVal) (acc : List JVal)
    (hcmp : ∀ y ∈ acc, pyComparable x y)
    (hch : acc.Chain' pyLe) :
    ∃ zs, pyInsert x acc = .ok zs ∧ zs.Chain' pyLe ∧ zs.Perm (x :: acc) ∧
      (zs.head? = some x ∨ zs.head? = acc.head?) := by
  induction acc with
  | nil => exact ⟨[x], rfl, List.chain'_singleton x, List.Perm.refl _, Or.inl rfl⟩
  | cons y ys ih =>
    obtain ⟨o, ho⟩ := hcmp y (List.mem_cons_self _ _)
    by_cases hlt : o = .lt
    · subst hlt
      refine ⟨x :: y :: ys, ?_, ?_, List.Perm.refl _, Or.inl rfl⟩
      · simp [pyInsert, ho]
      · exact List.Chain'.cons (Or.inl ho) hch
    · obtain ⟨zs, h1, h2, h3, hhead⟩ :=
        ih (fun z hz => hcmp z (List.mem_cons_of_mem _ hz)) hch.tail
      refine ⟨y :: zs, ?_, ?_, ?_, Or.inr rfl⟩
      · cases o with
        | lt => exact absurd rfl hlt
        | eq => simp [pyInsert, ho, h1]
        | gt => simp [pyInsert, ho, h1]
      · refine List.chain'_cons'.mpr ⟨?_, h2⟩
        intro z hz
        rcases hhead with hh | hh
        · rw [hh] at hz
          cases hz
          exact pyLe_of_swap_ne_lt x y o ho hlt
        · rw [hh] at hz
          exact (List.chain'_cons'.mp hch).1 z hz
      · exact (h3.cons y).trans (List.Perm.swap x y ys)

theorem pySortAux_ok (l : List JVal) : ∀ (acc : List JVal),
    acc.Chain' pyLe →
    (∀ x ∈ l, ∀ y ∈ acc, pyComparable x y) →
    mutuallyComparable l →
    ∃ ys, pySortAux acc l = .ok ys ∧ ys.Chain' pyLe ∧ ys.Perm (acc ++ l) := by
  induction l with
  | nil =>
    intro acc hch _ _
    exact ⟨acc, rfl, hch, by simp⟩
  | cons x xs ih =>
    intro acc hch hcl hmut
    obtain ⟨zs, h1, h2, h3, _⟩ :=
      pyInsert_ok x acc (hcl x (List.mem_cons_self _ _)) hch
    obtain ⟨ys, g1, g2, g3⟩ := ih zs h2
      (fun x' hx' y hy => by
        rcases List.mem_cons.mp (h3.mem_iff.mp hy) with rfl | hy'
        · exact hmut x' (List.mem_cons_of_mem _ hx') y (List.mem_cons_self _ _)
        · exact hcl x' (List.mem_cons_of_mem _ hx') y hy')
      (fun a ha b hb =>
        hmut a (List.mem_cons_of_mem _ ha) b (List.mem_cons_of_mem _ hb))
    refine ⟨ys, ?_, g2, ?_⟩
    · simp [pySortAux, h1, g1]
    · exact g3.trans ((h3.append_right xs).trans List.perm_middle.symm)

theorem pySorted_ok_of_mutuallyComparable (l : List JVal)
    (hmut : mutuallyComparable l) :
    ∃ ys, pySorted l = .ok ys ∧ ys.Chain' pyLe ∧ ys.Perm l := by
  obtain ⟨ys, h1, h2, h3⟩ := pySortAux_ok l [] List.chain'_nil (by simp) hmut
  exact ⟨ys, h1, h2, by simpa using h3⟩

theorem lookupField_cons_ne (k1 : String) (v : JVal) (ps : Rec) (k : String)
    (h : (k1 == k) = false) :
    lookupField ((k1, v) :: ps) k = lookupField ps k := by
  simp [lookupField, List.find?_cons_of_neg, h]

theorem lookupField_cons_eq (k : String) (v : JVal) (ps : Rec) :
    lookupField ((k, v) :: ps) k = some v := by
  simp [lookupField, List.find?_cons_of_pos]

theorem lookupField_append_none (l1 l2 : Rec) (k : String)
    (h : lookupField l1 k = none) :
    lookupField (l1 ++ l2) k = lookupField l2 k := by
  induction l1 with
  | nil => rfl
  | cons p ps ih =>
    obtain ⟨k1, v⟩ := p
    by_cases hp : (k1 == k) = true
    · have : k1 = k := eq_of_beq hp
      subst this
      rw [lookupField_cons_eq] at h
      cases h
    · rw [lookupField_cons_ne k1 v ps k (by simpa using hp)] at h
      rw [List.cons_append, lookupField_cons_ne k1 v _ k (by simpa using hp)]
      exact ih h

theorem lookup_if_chunk (key fld : String) (cond : Bool) (v : JVal)
    (h : (key == fld) = false) :
    lookupField (if cond then [] else [(key, v)]) fld = none := by
  cases cond
  · simp only [Bool.false_eq_true, if_false]
    rw [lookupField_cons_ne key v [] fld h]
    rfl
  · rfl

/-- Where the combined profile stores `streams` (lines 122-126): absent
when the deduplicated list is empty, otherwise its best-effort-sorted
form, the sort falling back to the deduplicated order on any comparison
error. -/
theorem combined_profile_streams (bs : List Rec) (L : SweepLists)
    (hL : collectLists bs = .ok L) :
    ∃ cp, combined_profile bs = .ok cp ∧
      (uniq L.streams = [] → lookupField cp "streams" = none) ∧
      (uniq L.streams ≠ [] → lookupField cp "streams" =
        some (.jarr (match pySorted (uniq L.streams) with
                     | .ok ys => ys
                     | .error _ => uniq L.streams))) := by
  rcases hcp : combined_profile bs with e | cp
  · simp [combined_profile, hL, bind, Except.bind, pure, Except.pure] at hcp
  · refine ⟨cp, rfl, ?_, ?_⟩ <;>
      (simp only [combined_profile, hL, bind, Except.bind, pure, Except.pure,
         Except.ok.injEq] at hcp
       subst hcp
       intro hst
       simp only [List.append_assoc, List.cons_append]
       rw [lookupField_cons_ne _ _ _ _ (by decide),
           lookupField_cons_ne _ _ _ _ (by decide)]
       simp only [List.nil_append]
       rw [lookupField_append_none _ _ _ (lookup_if_chunk _ _ _ _ (by decide)),
           lookupField_append_none _ _ _ (lookup_if_chunk _ _ _ _ (by decide))])
    · have hst' : (uniq L.streams).isEmpty = true := by simp [hst]
      simp only [hst', if_true, List.nil_append]
      exact lookup_if_chunk _ _ _ _ (by decide)
    · have hst' : (uniq L.streams).isEmpty = false := by
        simpa [List.isEmpty_iff] using hst
      simp only [hst', Bool.false_eq_true, if_false, List.cons_append]
      exact lookupField_cons_eq _ _ _

instance (l : List JVal) : Decidable (mutuallyComparable l) :=
  inferInstanceAs (Decidable (∀ a ∈ l, ∀ b ∈ l, pyComparable a b))

/-- Claim C7: the combined profile's `streams` entry is the deduplicated
list additionally sorted ascending (adjacent pairs in Python `<=` order,
a permutation of the deduplicated list) whenever its elements are
mutually comparable; when the sort raises a comparison error, the
deduplicated list in first-seen order is stored instead; and the sort
step never makes the profile construction itself fail. -/
theorem streams_sorted_best_effort :
    (∀ (bs : List Rec) (L : SweepLists), collectLists bs = .ok L →
      ∃ cp, combined_profile bs = .ok cp) ∧
    (∀ (bs : List Rec) (L : SweepLists) (cp : Rec),
      collectLists bs = .ok L → combined_profile bs = .ok cp →
      uniq L.streams ≠ [] → mutuallyComparable (uniq L.streams) →
      ∃ ys, pySorted (uniq L.streams) = .ok ys ∧
        lookupField cp "streams" = some (.jarr ys) ∧
        ys.Chain' pyLe ∧ ys.Perm (uniq L.streams)) ∧
    (∀ (bs : List Rec) (L : SweepLists) (cp : Rec) (er : PyErr),
      collectLists bs = .ok L → combined_profile bs = .ok cp →
      uniq L.streams ≠ [] → pySorted (uniq L.streams) = .error er →
      lookupField cp "streams" = some (.jarr (uniq L.streams))) := by
  refine ⟨?_, ?_, ?_⟩
  · intro bs L hL
    obtain ⟨cp, hcp, _, _⟩ := combined_profile_streams bs L hL
    exact ⟨cp, hcp⟩
  · intro bs L cp hL hcp hne hmut
    obtain ⟨cp', hcp', _, hlook⟩ := combined_profile_streams bs L hL
    rw [hcp] at hcp'
    injection hcp' with he
    subst he
    obtain ⟨ys, hys, hch, hperm⟩ := pySorted_ok_of_mutuallyComparable _ hmut
    refine ⟨ys, hys, ?_, hch, hperm⟩
    rw [hlook hne, hys]
  · intro bs L cp er hL hcp hne herr
    obtain ⟨cp', hcp', _, hlook⟩ := combined_profile_streams bs L hL
    rw [hcp] at hcp'
    injection hcp' with he
    subst he
    rw [hlook hne, herr]

/-- Witness for C7 at a concrete input whose streams dedup to `[2, 1]`:
the combined profile stores them sorted ascending. -/
theorem streams_sorted_best_effort_witness :
    ∃ ys, pySorted [JVal.jint 2, JVal.jint 1] = .ok ys ∧
      lookupField [("type_", JVal.jstr "concurrent"),
        ("completed_strategies", JVal.jint 1),
        ("streams", JVal.jarr [JVal.jint 1, JVal.jint 2])] "streams" =
        some (.jarr ys) ∧
      ys.Chain' pyLe ∧ ys.Perm [JVal.jint 2, JVal.jint 1] :=
  streams_sorted_best_effort.2.1
    [[("args", JVal.jobj [("profile", JVal.jobj
        [("streams", JVal.jarr [JVal.jint 2, JVal.jint 1])])])]]
    ⟨[], [], [JVal.jint 2, JVal.jint 1], []⟩
    [("type_", JVal.jstr "concurrent"), ("completed_strategies", JVal.jint 1),
     ("streams", JVal.jarr [JVal.jint 1, JVal.jint 2])]
    (by decide) (by decide) (by decide) (by decide)

theorem ratCmp_eq_iff (x y : Rat) : ratCmp x y = .eq ↔ x = y := by
  unfold ratCmp
  rcases lt_trichotomy x y with h | h | h
  · simp [h, h.ne]
  · simp [h, lt_irrefl]
  · simp [not_lt.mpr h.le, h.ne']

theorem ratCmp_lt_iff (x y : Rat) : ratCmp x y = .lt ↔ x < y := by
  unfold ratCmp
  rcases lt_trichotomy x y with h | h | h
  · simp [h]
  · simp [h, lt_irrefl]
  · simp [not_lt.mpr h.le, h.ne', not_lt.mpr h.le]

theorem charListCmp_eq_iff : ∀ (a b : List Char), charListCmp a b = .eq ↔ a = b := by
  intro a
  induction a with
  | nil => intro b; cases b <;> simp [charListCmp]
  | cons c cs ih =>
    intro b
    cases b with
    | nil => simp [charListCmp]
    | cons d ds =>
      simp only [charListCmp]
      rcases Nat.lt_trichotomy c.toNat d.toNat with h | h | h
      · have : c ≠ d := fun hc => by simp [hc] at h
        simp [h, this]
      · have hcd : c = d := Char.ext (UInt32.ext h)
        simp [h, Nat.lt_irrefl, ih ds, hcd]
      · have : c ≠ d := fun hc => by simp [hc] at h
        simp [h, Nat.lt_asymm h, this]

theorem charListCmp_lt_trans : ∀ (a b c : List Char),
    charListCmp a b = .lt → charListCmp b c = .lt → charListCmp a c = .lt := by
  intro a
  induction a with
  | nil =>
    intro b c hab hbc
    cases b with
    | nil => cases hab
    | cons d ds =>
      cases c with
      | nil => cases hbc
      | cons e es => rfl
  | cons x xs ih =>
    intro b c hab hbc
    cases b with
    | nil => cases hab
    | cons d ds =>
      cases c with
      | nil => cases hbc
      | cons e es =>
        simp only [charListCmp] at hab hbc ⊢
        by_cases h1 : x.toNat < d.toNat
        · by_cases h2 : d.toNat < e.toNat
          · have hx : x.toNat < e.toNat := by omega
            simp [hx]
          · by_cases h3 : e.toNat < d.toNat
            · simp [h2, h3] at hbc
            · have hx : x.toNat < e.toNat := by omega
              simp [hx]
        · by_cases h3 : d.toNat < x.toNat
          · simp [h1, h3] at hab
          · simp only [h1, h3, if_false] at hab
            by_cases h2 : d.toNat < e.toNat
            · have hx : x.toNat < e.toNat := by omega
              simp [hx]
            · by_cases h4 : e.toNat < d.toNat
              · simp [h2, h4] at hbc
              · simp only [h2, h4, if_false] at hbc
                have hx1 : ¬ x.toNat < e.toNat := by omega
                have hx2 : ¬ e.toNat < x.toNat := by omega
                simp only [hx1, hx2, if_false]
                exact ih ds es hab hbc

theorem pyCompare_num (a b : JVal) (x y : Rat)
    (ha : numVal a = some x) (hb : numVal b = some y) :
    pyCompare a b = .ok (ratCmp x y) := by
  rw [pyCompare_def]
  cases a <;> cases b <;> simp_all [numVal]

theorem pyCompare_ok_inv (a b : JVal) (o : Ordering)
    (h : pyCompare a b = .ok o) :
    (∃ x y, numVal a = some x ∧ numVal b = some y ∧ ratCmp x y = o) ∨
    (∃ s t, a = .jstr s ∧ b = .jstr t ∧ strCmp s t = o) ∨
    (∃ xs ys, a = .jarr xs ∧ b = .jarr ys ∧ pyCompareList xs ys = .ok o) := by
  rw [pyCompare_def] at h
  cases a <;> cases b <;>
    first
    | exact Or.inl ⟨_, _, rfl, rfl, Except.ok.inj h⟩
    | exact Or.inr (Or.inl ⟨_, _, rfl, rfl, Except.ok.inj h⟩)
    | exact Or.inr (Or.inr ⟨_, _, rfl, rfl, h⟩)
    | cases h

theorem pyCompareList_trans (as : List JVal) : ∀ (bs cs : List JVal),
    (∀ x ∈ as, ∀ y ∈ bs, ∀ z ∈ cs,
      (∀ r, pyCompare x y = .ok .eq → pyCompare y z = .ok r →
        pyCompare x z = .ok r) ∧
      (∀ r, pyCompare x y = .ok r → pyCompare y z = .ok .eq →
        pyCompare x z = .ok r) ∧
      (pyCompare x y = .ok .lt → pyCompare y z = .ok .lt →
        pyCompare x z = .ok .lt)) →
    (∀ r, pyCompareList as bs = .ok .eq → pyCompareList bs cs = .ok r →
      pyCompareList as cs = .ok r) ∧
    (∀ r, pyCompareList as bs = .ok r → pyCompareList bs cs = .ok .eq →
      pyCompareList as cs = .ok r) ∧
    (pyCompareList as bs = .ok .lt → pyCompareList bs cs = .ok .lt →
      pyCompareList as cs = .ok .lt) := by
  induction as with
  | nil =>
    intro bs cs _
    refine ⟨?_, ?_, ?_⟩
    · intro r hab hbc
      cases bs with
      | nil => exact hbc
      | cons y ys => cases hab
    · intro r hab hbc
      cases bs with
      | nil =>
        cases cs with
        | nil => cases hab; exact hbc
        | cons z zs => cases hbc
      | cons y ys =>
        cases cs with
        | nil => cases hbc
        | cons z zs =>
          cases hab
          rfl
    · intro hab hbc
      cases bs with
      | nil => cases hab
      | cons y ys =>
        cases cs with
        | nil => cases hbc
        | cons z zs => rfl
  | cons x xs ih =>
    intro bs cs helem
    cases bs with
    | nil =>
      refine ⟨?_, ?_, ?_⟩
      · intro r hab hbc; cases hab
      · intro r hab hbc
        cases cs with
        | nil => cases hbc; exact hab
        | cons z zs => cases hbc
      · intro hab hbc; cases hab
    | cons y ys =>
      cases cs with
      | nil =>
        refine ⟨?_, ?_, ?_⟩
        · intro r hab hbc
          cases hbc
          rfl
        · intro r hab hbc; cases hbc
        · intro hab hbc; cases hbc
      | cons z zs =>
        have hx := helem x (List.mem_cons_self _ _) y (List.mem_cons_self _ _)
          z (List.mem_cons_self _ _)
        have ihtail := ih ys zs (fun u hu v hv w hw =>
          helem u (List.mem_cons_of_mem _ hu) v (List.mem_cons_of_mem _ hv)
            w (List.mem_cons_of_mem _ hw))
        refine ⟨?_, ?_, ?_⟩
        · intro r hab hbc
          simp only [pyCompareList] at hab hbc ⊢
          rcases hxy : pyCompare x y with e | o <;> rw [hxy] at hab
          · cases hab
          · cases o <;> try cases hab
            rcases hyz : pyCompare y z with e | o2 <;> rw [hyz] at hbc
            · cases hbc
            · cases o2 with
              | eq =>
                rw [hx.1 .eq hxy hyz]
                exact ihtail.1 r hab hbc
              | lt =>
                rw [hx.1 .lt hxy hyz]
                exact hbc
              | gt =>
                rw [hx.1 .gt hxy hyz]
                exact hbc
        · intro r hab hbc
          simp only [pyCompareList] at hab hbc ⊢
          rcases hyz : pyCompare y z with e | o2 <;> rw [hyz] at hbc
          · cases hbc
          · cases o2 <;> try cases hbc
            rcases hxy : pyCompare x y with e | o <;> rw [hxy] at hab
            · cases hab
            · cases o with
              | eq =>
                rw [hx.2.1 .eq hxy hyz]
                exact ihtail.2.1 r hab hbc
              | lt =>
                rw [hx.2.1 .lt hxy hyz]
                exact hab
              | gt =>
                rw [hx.2.1 .gt hxy hyz]
                exact hab
        · intro hab hbc
          simp only [pyCompareList] at hab hbc ⊢
          rcases hxy : pyCompare x y with e | o <;> rw [hxy] at hab
          · cases hab
          · rcases hyz : pyCompare y z with e | o2 <;> rw [hyz] at hbc
            · cases hbc
            · cases o with
              | lt =>
                cases o2 with
                | lt =>
                  rw [hx.2.2 hxy hyz]
                | eq =>
                  rw [hx.2.1 .lt hxy hyz]
                | gt => cases hbc
              | eq =>
                cases o2 with
                | lt =>
                  rw [hx.1 .lt hxy hyz]
                | eq =>
                  rw [hx.1 .eq hxy hyz]
                  exact ihtail.2.2 hab hbc
                | gt => cases hbc
              | gt => cases hab

theorem pyCompare_trans_all : ∀ (a b c : JVal),
    (∀ r, pyCompare a b = .ok .eq → pyCompare b c = .ok r →
      pyCompare a c = .ok r) ∧
    (∀ r, pyCompare a b = .ok r → pyCompare b c = .ok .eq →
      pyCompare a c = .ok r) ∧
    (pyCompare a b = .ok .lt → pyCompare b c = .ok .lt →
      pyCompare a c = .ok .lt) := by
  have main : ∀ (n : Nat) (a b c : JVal), sizeOf a + sizeOf b + sizeOf c ≤ n →
      (∀ r, pyCompare a b = .ok .eq → pyCompare b c = .ok r →
        pyCompare a c = .ok r) ∧
      (∀ r, pyCompare a b = .ok r → pyCompare b c = .ok .eq →
        pyCompare a c = .ok r) ∧
      (pyCompare a b = .ok .lt → pyCompare b c = .ok .lt →
        pyCompare a c = .ok .lt) := by
    intro n
    induction n with
    | zero =>
      intro a b c h
      exfalso
      cases a <;> simp_arith at h
    | succ n ih =>
      intro a b c h
      have harr : ∀ (as bs cs : List JVal), a = .jarr as → b = .jarr bs →
          c = .jarr cs →
          (∀ x ∈ as, ∀ y ∈ bs, ∀ z ∈ cs,
            (∀ r, pyCompare x y = .ok .eq → pyCompare y z = .ok r →
              pyCompare x z = .ok r) ∧
            (∀ r, pyCompare x y = .ok r → pyCompare y z = .ok .eq →
              pyCompare x z = .ok r) ∧
            (pyCompare x y = .ok .lt → pyCompare y z = .ok .lt →
              pyCompare x z = .ok .lt)) := by
        rintro as bs cs rfl rfl rfl
        intro x hx y hy z hz
        have h1 := List.sizeOf_lt_of_mem hx
        have h2 := List.sizeOf_lt_of_mem hy
        have h3 := List.sizeOf_lt_of_mem hz
        simp_arith at h
        exact ih x y z (by omega)
      refine ⟨?_, ?_, ?_⟩
      · intro r hab hbc
        rcases pyCompare_ok_inv _ _ _ hab with
          ⟨x, y, hna, hnb, hr1⟩ | ⟨s, t, rfl, rfl, hr1⟩ | ⟨as, bs, rfl, rfl, hr1⟩
        · rcases pyCompare_ok_inv _ _ _ hbc with
            ⟨y', z, hnb', hnc, hr2⟩ | ⟨t', u, rfl, rfl, hr2⟩ | ⟨bs, cs, rfl, rfl, hr2⟩
          · rw [hnb] at hnb'
            injection hnb' with hy
            subst hy
            have hxy := (ratCmp_eq_iff x y).mp hr1
            subst hxy
            rw [pyCompare_num a c x z hna hnc, hr2]
          · simp [numVal] at hnb
          · simp [numVal] at hnb
        · rcases pyCompare_ok_inv _ _ _ hbc with
            ⟨y', z, hnb', hnc, hr2⟩ | ⟨t', u, heq, rfl, hr2⟩ | ⟨bs, cs, heq, rfl, hr2⟩
          · simp [numVal] at hnb'
          · injection heq with ht
            subst ht
            have hst := (charListCmp_eq_iff _ _).mp hr1
            have : strCmp s u = strCmp t u := by
              unfold strCmp
              rw [hst]
            rw [show pyCompare (JVal.jstr s) (JVal.jstr u) =
              .ok (strCmp s u) from by rw [pyCompare_def], this, hr2]
          · cases heq
        · rcases pyCompare_ok_inv _ _ _ hbc with
            ⟨y', z, hnb', hnc, hr2⟩ | ⟨t', u, heq, rfl, hr2⟩ | ⟨bs', cs, heq, rfl, hr2⟩
          · simp [numVal] at hnb'
          · cases heq
          · injection heq with hb
            subst hb
            rw [show pyCompare (JVal.jarr as) (JVal.jarr cs) =
              pyCompareList as cs from by rw [pyCompare_def]]
            exact (pyCompareList_trans as bs cs
              (harr as bs cs rfl rfl rfl)).1 r hr1 hr2
      · intro r hab hbc
        rcases pyCompare_ok_inv _ _ _ hab with
          ⟨x, y, hna, hnb, hr1⟩ | ⟨s, t, rfl, rfl, hr1⟩ | ⟨as, bs, rfl, rfl, hr1⟩
        · rcases pyCompare_ok_inv _ _ _ hbc with
            ⟨y', z, hnb', hnc, hr2⟩ | ⟨t', u, rfl, rfl, hr2⟩ | ⟨bs, cs, rfl, rfl, hr2⟩
          · rw [hnb] at hnb'
            injection hnb' with hy
            subst hy
            have hyz := (ratCmp_eq_iff y z).mp hr2
            subst hyz
            rw [pyCompare_num a c x y hna hnc, hr1]
          · simp [numVal] at hnb
          · simp [numVal] at hnb
        · rcases pyCompare_ok_inv _ _ _ hbc with
            ⟨y', z, hnb', hnc, hr2⟩ | ⟨t', u, heq, rfl, hr2⟩ | ⟨bs, cs, heq, rfl, hr2⟩
          · simp [numVal] at hnb'
          · injection heq with ht
            subst ht
            have htu := (charListCmp_eq_iff _ _).mp hr2
            have : strCmp s u = strCmp s t := by
              unfold strCmp
              rw [htu]
            rw [show pyCompare (JVal.jstr s) (JVal.jstr u) =
              .ok (strCmp s u) from by rw [pyCompare_def], this, hr1]
          · cases heq
        · rcases pyCompare_ok_inv _ _ _ hbc with
            ⟨y', z, hnb', hnc, hr2⟩ | ⟨t', u, heq, rfl, hr2⟩ | ⟨bs', cs, heq, rfl, hr2⟩
          · simp [numVal] at hnb'
          · cases heq
          · injection heq with hb
            subst hb
            rw [show pyCompare (JVal.jarr as) (JVal.jarr cs) =
              pyCompareList as cs from by rw [pyCompare_def]]
            exact (pyCompareList_trans as bs cs
              (harr as bs cs rfl rfl rfl)).2.1 r hr1 hr2
      · intro hab hbc
        rcases pyCompare_ok_inv _ _ _ hab with
          ⟨x, y, hna, hnb, hr1⟩ | ⟨s, t, rfl, rfl, hr1⟩ | ⟨as, bs, rfl, rfl, hr1⟩
        · rcases pyCompare_ok_inv _ _ _ hbc with
            ⟨y', z, hnb', hnc, hr2⟩ | ⟨t', u, rfl, rfl, hr2⟩ | ⟨bs, cs, rfl, rfl, hr2⟩
          · rw [hnb] at hnb'
            injection hnb' with hy
            subst hy
            have hxy := (ratCmp_lt_iff x y).mp hr1
            have hyz := (ratCmp_lt_iff y z).mp hr2
            rw [pyCompare_num a c x z hna hnc,
              (ratCmp_lt_iff x z).mpr (hxy.trans hyz)]
          · simp [numVal] at hnb
          · simp [numVal] at hnb
        · rcases pyCompare_ok_inv _ _ _ hbc with
            ⟨y', z, hnb', hnc, hr2⟩ | ⟨t', u, heq, rfl, hr2⟩ | ⟨bs, cs, heq, rfl, hr2⟩
          · simp [numVal] at hnb'
          · injection heq with ht
            subst ht
            rw [show pyCompare (JVal.jstr s) (JVal.jstr u) =
              .ok (strCmp s u) from by rw [pyCompare_def]]
            unfold strCmp
            rw [charListCmp_lt_trans s.toList t.toList u.toList hr1 hr2]
          · cases heq
        · rcases pyCompare_ok_inv _ _ _ hbc with
            ⟨y', z, hnb', hnc, hr2⟩ | ⟨t', u, heq, rfl, hr2⟩ | ⟨bs', cs, heq, rfl, hr2⟩
          · simp [numVal] at hnb'
          · cases heq
          · injection heq with hb
            subst hb
            rw [show pyCompare (JVal.jarr as) (JVal.jarr cs) =
              pyCompareList as cs from by rw [pyCompare_def]]
            exact (pyCompareList_trans as bs cs
              (harr as bs cs rfl rfl rfl)).2.2 hr1 hr2
  intro a b c
  exact main (sizeOf a + sizeOf b + sizeOf c) a b c (le_refl _)

theorem pyLe_trans (a b c : JVal) (h1 : pyLe a b) (h2 : pyLe b c) : pyLe a c := by
  rcases h1 with h1 | h1 <;> rcases h2 with h2 | h2
  · exact Or.inl ((pyCompare_trans_all a b c).2.2 h1 h2)
  · exact Or.inl ((pyCompare_trans_all a b c).2.1 .lt h1 h2)
  · exact Or.inl ((pyCompare_trans_all a b c).1 .lt h1 h2)
  · exact Or.inr ((pyCompare_trans_all a b c).1 .eq h1 h2)

theorem pyInsert_append_of_le (x : JVal) (acc : List JVal)
    (h : ∀ y ∈ acc, pyLe y x) :
    pyInsert x acc = .ok (acc ++ [x]) := by
  induction acc with
  | nil => rfl
  | cons y ys ih =>
    have hy := h y (List.mem_cons_self _ _)
    have hs := pyCompare_swap y x
    have hxy : pyCompare x y = .ok .gt ∨ pyCompare x y = .ok .eq := by
      rcases hy with hy | hy <;> rw [hy] at hs
      · exact Or.inl (by simpa [Except.map, Ordering.swap] using hs)
      · exact Or.inr (by simpa [Except.map, Ordering.swap] using hs)
    have hrest := ih (fun z hz => h z (List.mem_cons_of_mem _ hz))
    rcases hxy with hxy | hxy <;>
      simp [pyInsert, hxy, hrest]

theorem pyInsert_eq_ok (x : JVal) : ∀ (acc zs : List JVal),
    pyInsert x acc = .ok zs → acc.Chain' pyLe →
    zs.Chain' pyLe ∧ zs.Perm (x :: acc) ∧
      (zs.head? = some x ∨ zs.head? = acc.head?) := by
  intro acc
  induction acc with
  | nil =>
    intro zs h _
    cases h
    exact ⟨List.chain'_singleton x, List.Perm.refl _, Or.inl rfl⟩
  | cons y ys ih =>
    intro zs h hch
    simp only [pyInsert] at h
    rcases hxy : pyCompare x y with e | o <;> rw [hxy] at h
    · cases h
    · cases o with
      | lt =>
        cases h
        exact ⟨List.Chain'.cons (Or.inl hxy) hch, List.Perm.refl _, Or.inl rfl⟩
      | eq =>
        rcases hrec : pyInsert x ys with e | zs' <;> rw [hrec] at h
        · cases h
        · cases h
          obtain ⟨hchz, hpz, hhz⟩ := ih zs' hrec hch.tail
          refine ⟨?_, (hpz.cons y).trans (List.Perm.swap x y ys), Or.inr rfl⟩
          refine List.chain'_cons'.mpr ⟨?_, hchz⟩
          intro z hz
          rcases hhz with hh | hh
          · rw [hh] at hz
            cases hz
            exact pyLe_of_swap_ne_lt x y .eq hxy (by simp)
          · rw [hh] at hz
            exact (List.chain'_cons'.mp hch).1 z hz
      | gt =>
        rcases hrec : pyInsert x ys with e | zs' <;> rw [hrec] at h
        · cases h
        · cases h
          obtain ⟨hchz, hpz, hhz⟩ := ih zs' hrec hch.tail
          refine ⟨?_, (hpz.cons y).trans (List.Perm.swap x y ys), Or.inr rfl⟩
          refine List.chain'_cons'.mpr ⟨?_, hchz⟩
          intro z hz
          rcases hhz with hh | hh
          · rw [hh] at hz
            cases hz
            exact pyLe_of_swap_ne_lt x y .gt hxy (by simp)
          · rw [hh] at hz
            exact (List.chain'_cons'.mp hch).1 z hz

theorem pySortAux_eq_ok : ∀ (l acc ys : List JVal),
    pySortAux acc l = .ok ys → acc.Chain' pyLe →
    ys.Chain' pyLe ∧ ys.Perm (acc ++ l) := by
  intro l
  induction l with
  | nil =>
    intro acc ys h hch
    cases h
    exact ⟨hch, by simp⟩
  | cons x xs ih =>
    intro acc ys h hch
    simp only [pySortAux] at h
    rcases hins : pyInsert x acc with e | zs <;> rw [hins] at h
    · cases h
    · obtain ⟨hchz, hpz, _⟩ := pyInsert_eq_ok x acc zs hins hch
      obtain ⟨hchy, hpy⟩ := ih zs ys h hchz
      exact ⟨hchy, hpy.trans ((hpz.append_right xs).trans List.perm_middle.symm)⟩

theorem pySorted_chain (l m : List JVal) (h : pySorted l = .ok m) :
    m.Chain' pyLe ∧ m.Perm l := by
  obtain ⟨hch, hp⟩ := pySortAux_eq_ok l [] m h List.chain'_nil
  exact ⟨hch, by simpa using hp⟩

theorem pySortAux_sorted_id : ∀ (l acc : List JVal),
    (acc ++ l).Pairwise pyLe → pySortAux acc l = .ok (acc ++ l) := by
  intro l
  induction l with
  | nil => intro acc _; simp [pySortAux]
  | cons x xs ih =>
    intro acc hp
    have hle : ∀ y ∈ acc, pyLe y x := by
      intro y hy
      have := (List.pairwise_append.mp hp).2.2
      exact this y hy x (List.mem_cons_self _ _)
    have hins := pyInsert_append_of_le x acc hle
    simp only [pySortAux, hins]
    have heq2 : acc ++ [x] ++ xs = acc ++ x :: xs := by
      rw [List.append_assoc]
      rfl
    rw [← heq2]
    exact ih (acc ++ [x]) (by rw [heq2]; exact hp)

instance : IsTrans JVal pyLe := ⟨pyLe_trans⟩

theorem pySorted_idem (l m : List JVal) (h : pySorted l = .ok m) :
    pySorted m = .ok m := by
  obtain ⟨hch, _⟩ := pySorted_chain l m h
  have hp : m.Pairwise pyLe := List.chain'_iff_pairwise.mp hch
  have := pySortAux_sorted_id m [] (by simpa using hp)
  simpa [pySorted] using this

theorem uniqAux_nil_of_sub (m : List JVal) : ∀ (seen : List PyKey),
    (∀ y ∈ m, pyKey y ∈ seen) → uniqAux seen m = [] := by
  induction m with
  | nil => intro seen _; rfl
  | cons y ys ih =>
    intro seen h
    simp only [uniqAux, h y (List.mem_cons_self _ _), if_true]
    exact ih seen (fun z hz => h z (List.mem_cons_of_mem _ hz))

theorem uniqAux_id_of_nodup (l : List JVal) : ∀ (seen : List PyKey),
    (l.map pyKey).Nodup → (∀ x ∈ l, pyKey x ∉ seen) → uniqAux seen l = l := by
  induction l with
  | nil => intro seen _ _; rfl
  | cons x xs ih =>
    intro seen hnd hni
    have hx : pyKey x ∉ seen := hni x (List.mem_cons_self _ _)
    simp only [uniqAux, hx, if_false]
    simp only [List.map_cons, List.nodup_cons] at hnd
    refine congrArg (x :: ·) (ih (pyKey x :: seen) hnd.2 ?_)
    intro z hz
    intro hc
    rcases List.mem_cons.mp hc with hc | hc
    · exact hnd.1 (hc ▸ List.mem_map_of_mem pyKey hz)
    · exact hni z (List.mem_cons_of_mem _ hz) hc

theorem uniq_id_of_nodup (l : List JVal) (h : (l.map pyKey).Nodup) :
    uniq l = l :=
  uniqAux_id_of_nodup l [] h (by simp)

theorem uniqAux_append_absorb (l : List JVal) : ∀ (m : List JVal) (seen : List PyKey),
    (∀ y ∈ m, pyKey y ∈ seen ∨ pyKey y ∈ l.map pyKey) →
    uniqAux seen (l ++ m) = uniqAux seen l := by
  induction l with
  | nil =>
    intro m seen h
    simp only [List.nil_append, uniqAux]
    exact uniqAux_nil_of_sub m seen (fun y hy => by
      rcases h y hy with hs | hs
      · exact hs
      · simp at hs)
  | cons x xs ih =>
    intro m seen h
    by_cases hx : pyKey x ∈ seen
    · simp only [List.cons_append, uniqAux, hx, if_true]
      refine ih m seen (fun y hy => ?_)
      rcases h y hy with hs | hs
      · exact Or.inl hs
      · simp only [List.map_cons, List.mem_cons] at hs
        rcases hs with hs | hs
        · exact Or.inl (hs ▸ hx)
        · exact Or.inr hs
    · simp only [List.cons_append, uniqAux, hx, if_false]
      refine congrArg (x :: ·) (ih m (pyKey x :: seen) (fun y hy => ?_))
      rcases h y hy with hs | hs
      · exact Or.inl (List.mem_cons_of_mem _ hs)
      · simp only [List.map_cons, List.mem_cons] at hs
        rcases hs with hs | hs
        · exact Or.inl (hs ▸ List.mem_cons_self _ _)
        · exact Or.inr hs

theorem uniq_append_absorb (l m : List JVal)
    (h : ∀ y ∈ m, pyKey y ∈ l.map pyKey) :
    uniq (l ++ m) = uniq l :=
  uniqAux_append_absorb l m [] (fun y hy => Or.inr (h y hy))

/-- Claim C10 as one proposition: aggregating the records of one
successful merge (which all carry the combined profile) reproduces the
combined profile on the four tracked fields. -/
def C10Statement : Prop :=
  ∀ (d : String) (files : List InputFile) (bs : List Rec) (cp : Rec)
    (out : JVal) (recs : List Rec),
    collectBenchmarks files = .ok bs →
    combined_profile bs = .ok cp →
    merge_benchmark_files d files = .ok out →
    out = .jobj [("benchmarks", .jarr (recs.map JVal.jobj))] →
    ∃ cp2, combined_profile recs = .ok cp2 ∧
      lookupField cp2 "measured_rates" = lookupField cp "measured_rates" ∧
      lookupField cp2 "measured_concurrencies" =
        lookupField cp "measured_concurrencies" ∧
      lookupField cp2 "streams" = lookupField cp "streams" ∧
      lookupField cp2 "strategy_types" = lookupField cp "strategy_types"

/-- Counterexample to C10 as stated: a record with `profile.streams ==
[]` and `args.strategy.streams == 5` contributes nothing to `streams` on
the first pass (the empty list is present, so no fallback); the combined
profile then carries no `streams` key, so on the second pass the
fallback fires and contributes `5`. -/
theorem aggregation_not_idempotent_counterexample : ¬ C10Statement := by
  intro hc
  obtain ⟨cp2, hcp2, _, _, hs, _⟩ := hc "d"
    [⟨"d/a", some (.jobj [("type_", .jstr "x"),
      ("args", .jobj [("profile", .jobj [("streams", .jarr [])]),
        ("strategy", .jobj [("streams", .jint 5)])])])⟩]
    [[("type_", JVal.jstr "x"),
      ("args", JVal.jobj
        [("profile", JVal.jobj [("streams", JVal.jarr [])]),
         ("strategy", JVal.jobj [("streams", JVal.jint 5)])]),
      ("__source_file", JVal.jstr "a")]]
    [("type_", JVal.jstr "concurrent"), ("completed_strategies", JVal.jint 1)]
    (.jobj [("benchmarks", .jarr [.jobj [("type_", JVal.jstr "x"),
      ("args", JVal.jobj
        [("profile", JVal.jobj [("type_", JVal.jstr "concurrent"),
          ("completed_strategies", JVal.jint 1)]),
         ("strategy", JVal.jobj [("streams", JVal.jint 5)])]),
      ("__source_file", JVal.jstr "a"),
      ("__combined_from", JVal.jstr "d")]])])
    [[("type_", JVal.jstr "x"),
      ("args", JVal.jobj
        [("profile", JVal.jobj [("type_", JVal.jstr "concurrent"),
          ("completed_strategies", JVal.jint 1)]),
         ("strategy", JVal.jobj [("streams", JVal.jint 5)])]),
      ("__source_file", JVal.jstr "a"),
      ("__combined_from", JVal.jstr "d")]]
    (by decide) (by decide) (by decide) (by decide)
  rw [show combined_profile [[("type_", JVal.jstr "x"),
      ("args", JVal.jobj
        [("profile", JVal.jobj [("type_", JVal.jstr "concurrent"),
          ("completed_strategies", JVal.jint 1)]),
         ("strategy", JVal.jobj [("streams", JVal.jint 5)])]),
      ("__source_file", JVal.jstr "a"),
      ("__combined_from", JVal.jstr "d")]] =
    .ok [("type_", JVal.jstr "concurrent"),
      ("completed_strategies", JVal.jint 1),
      ("streams", JVal.jarr [JVal.jint 5])] from by decide] at hcp2
  injection hcp2 with hcp2
  subst hcp2
  exact absurd hs (by decide)

/-- A record whose `args.strategy.streams` would contribute nothing (and
raise nothing) if the streams fallback fired on it: strategy absent, or a
dict whose `streams` is absent, null, or the empty list. -/
def noStrategyStreams (b : Rec) : Bool :=
  match lookupField b "args" with
  | none => true
  | some (.jobj afs) =>
    match lookupField afs "strategy" with
    | none => true
    | some (.jobj sfs) =>
      match lookupField sfs "streams" with
      | none => true
      | some .jnull => true
      | some (.jarr []) => true
      | some _ => false
    | some _ => false
  | some _ => false


theorem recordSweep_output (cp x o : Rec) (v : JVal)
    (hatt : attachProfile cp x = .ok o)
    (hnn : lookupField cp "streams" ≠ some .jnull)
    (hns : lookupField cp "streams" = none → noStrategyStreams x = true) :
    recordSweep (setKey o "__combined_from" v) =
      .ok (claimContribAmended (lookupField cp "measured_rates"),
           claimContribAmended (lookupField cp "measured_concurrencies"),
           claimContribAmended (lookupField cp "streams"),
           claimContribAmended (lookupField cp "strategy_types")) := by
  unfold attachProfile at hatt
  have hcf : ("__combined_from" == "args") = false := by decide
  rcases hargs : lookupField x "args" with _ | av
  · rw [hargs] at hatt
    injection hatt with ho
    subst ho
    simp only [recordSweep, bind, Except.bind, pure, Except.pure]
    rw [lookup_setKey_other _ "__combined_from" "args" _ hcf,
      lookup_setKey_self]
    simp only [Option.getD_some, pyGetN, pyGetD]
    rw [lookupField_cons_eq]
    simp only [Option.getD_some]
    rw [contrib_getD_null, contrib_getD_null, contrib_getD_null]
    rcases hs : lookupField cp "streams" with _ | w
    · simp only [Option.getD_none]
      simp [lookupField, contrib, claimContribAmended]
    · have hwn : w ≠ JVal.jnull := by
        intro hc
        exact hnn (hc ▸ hs)
      simp only [Option.getD_some, if_neg hwn]
      rw [contrib_eq_amended_of_ne w hwn]
  · cases av with
    | jobj afs =>
      rw [hargs] at hatt
      injection hatt with ho
      subst ho
      simp only [recordSweep, bind, Except.bind, pure, Except.pure]
      rw [lookup_setKey_other _ "__combined_from" "args" _ hcf,
        lookup_setKey_self]
      simp only [Option.getD_some, pyGetN, pyGetD]
      rw [lookup_setKey_self]
      simp only [Option.getD_some]
      rw [contrib_getD_null, contrib_getD_null, contrib_getD_null]
      rcases hs : lookupField cp "streams" with _ | w
      · have hgood := hns hs
        simp only [noStrategyStreams, hargs] at hgood
        simp only [Option.getD_none]
        have hso : lookupField (setKey afs "profile" (JVal.jobj cp)) "strategy"
            = lookupField afs "strategy" :=
          lookup_setKey_other afs "profile" "strategy" _ (by decide)
        rcases hstrat : lookupField afs "strategy" with _ | sv
        · rw [hstrat] at hso
          rw [hso]
          simp [lookupField, contrib, claimContribAmended]
        · rw [hstrat] at hgood
          cases sv with
          | jobj sfs =>
            rw [hstrat] at hso
            rw [hso]
            simp only [Option.getD_some]
            have hgood2 : (match lookupField sfs "streams" with
                | none => true
                | some JVal.jnull => true
                | some (JVal.jarr []) => true
                | some _ => false) = true := hgood
            rcases hss : lookupField sfs "streams" with _ | w2
            · simp [contrib, claimContribAmended]
            · cases w2 with
              | jnull =>
                simp [contrib, claimContribAmended]
              | jarr ws =>
                cases ws with
                | nil =>
                  simp [contrib, claimContribAmended]
                | cons z zs => simp [hss] at hgood2
              | jbool b => simp [hss] at hgood2
              | jint n => simp [hss] at hgood2
              | jfloat q => simp [hss] at hgood2
              | jstr s => simp [hss] at hgood2
              | jobj fs2 => simp [hss] at hgood2
          | jnull => simp at hgood
          | jbool b => simp at hgood
          | jint n => simp at hgood
          | jfloat q => simp at hgood
          | jstr s => simp at hgood
          | jarr zs => simp at hgood
      · have hwn : w ≠ JVal.jnull := by
          intro hc
          exact hnn (hc ▸ hs)
        simp only [Option.getD_some, if_neg hwn]
        rw [contrib_eq_amended_of_ne w hwn]
    | jnull => rw [hargs] at hatt; cases hatt
    | jbool b => rw [hargs] at hatt; cases hatt
    | jint n => rw [hargs] at hatt; cases hatt
    | jfloat q => rw [hargs] at hatt; cases hatt
    | jstr s => rw [hargs] at hatt; cases hatt
    | jarr zs => rw [hargs] at hatt; cases hatt

theorem collect_const_go (A B C D : List JVal) :
    ∀ (bs : List Rec) (acc : SweepLists),
    (∀ b ∈ bs, recordSweep b = .ok (A, B, C, D)) →
    bs.foldlM sweepStep acc = .ok
      ⟨acc.measured_rates ++ (List.replicate bs.length A).join,
       acc.measured_concurrencies ++ (List.replicate bs.length B).join,
       acc.streams ++ (List.replicate bs.length C).join,
       acc.strategy_types ++ (List.replicate bs.length D).join⟩ := by
  intro bs
  induction bs with
  | nil =>
    intro acc _
    simp [List.foldlM_nil, pure, Except.pure]
  | cons b bs ih =>
    intro acc h
    rw [List.foldlM_cons]
    have hb := h b (List.mem_cons_self _ _)
    simp only [sweepStep, hb, bind, Except.bind, pure, Except.pure]
    have := ih ⟨acc.measured_rates ++ A, acc.measured_concurrencies ++ B,
      acc.streams ++ C, acc.strategy_types ++ D⟩
      (fun x hx => h x (List.mem_cons_of_mem _ hx))
    rw [this]
    simp [List.replicate_succ, List.append_assoc]

theorem uniq_join_replicate (A : List JVal) (n : Nat) :
    uniq ((List.replicate (n + 1) A).join) = uniq A := by
  rw [List.replicate_succ]
  show uniq (A ++ (List.replicate n A).join) = uniq A
  apply uniq_append_absorb
  intro y hy
  rcases List.mem_join.mp hy with ⟨l, hl, hyl⟩
  have : l = A := (List.eq_of_mem_replicate hl)
  subst this
  exact List.mem_map_of_mem pyKey hyl

theorem combined_profile_fields (bs : List Rec) (L : SweepLists)
    (hL : collectLists bs = .ok L) :
    ∃ cp, combined_profile bs = .ok cp ∧
      lookupField cp "measured_rates" =
        (if (uniq L.measured_rates).isEmpty then none
         else some (.jarr (uniq L.measured_rates))) ∧
      lookupField cp "measured_concurrencies" =
        (if (uniq L.measured_concurrencies).isEmpty then none
         else some (.jarr (uniq L.measured_concurrencies))) ∧
      lookupField cp "streams" =
        (if (uniq L.streams).isEmpty then none
         else some (.jarr (match pySorted (uniq L.streams) with
                           | .ok ys => ys
                           | .error _ => uniq L.streams))) ∧
      lookupField cp "strategy_types" =
        (if (uniq L.strategy_types).isEmpty then none
         else some (.jarr (uniq L.strategy_types))) := by
  rcases hcp : combined_profile bs with e | cp
  · simp [combined_profile, hL, bind, Except.bind, pure, Except.pure] at hcp
  · refine ⟨cp, rfl, ?_, ?_, ?_, ?_⟩ <;>
      (simp only [combined_profile, hL, bind, Except.bind, pure, Except.pure,
         Except.ok.injEq] at hcp
       subst hcp
       simp only [List.append_assoc, List.cons_append]
       rw [lookupField_cons_ne _ _ _ _ (by decide),
           lookupField_cons_ne _ _ _ _ (by decide)]
       simp only [List.nil_append])
    · by_cases h1 : (uniq L.measured_rates).isEmpty
      · simp only [h1, if_true, List.nil_append]
        rw [lookupField_append_none _ _ _ (lookup_if_chunk _ _ _ _ (by decide)),
            lookupField_append_none _ _ _ (lookup_if_chunk _ _ _ _ (by decide))]
        exact lookup_if_chunk _ _ _ _ (by decide)
      · have h1' : (uniq L.measured_rates).isEmpty = false := by
          simpa using h1
        simp only [h1', Bool.false_eq_true, if_false, List.cons_append]
        exact lookupField_cons_eq _ _ _
    · rw [lookupField_append_none _ _ _ (lookup_if_chunk _ _ _ _ (by decide))]
      by_cases h2 : (uniq L.measured_concurrencies).isEmpty
      · simp only [h2, if_true, List.nil_append]
        rw [lookupField_append_none _ _ _ (lookup_if_chunk _ _ _ _ (by decide))]
        exact lookup_if_chunk _ _ _ _ (by decide)
      · have h2' : (uniq L.measured_concurrencies).isEmpty = false := by
          simpa using h2
        simp only [h2', Bool.false_eq_true, if_false, List.cons_append]
        exact lookupField_cons_eq _ _ _
    · rw [lookupField_append_none _ _ _ (lookup_if_chunk _ _ _ _ (by decide)),
          lookupField_append_none _ _ _ (lookup_if_chunk _ _ _ _ (by decide))]
      by_cases h3 : (uniq L.streams).isEmpty
      · simp only [h3, if_true, List.nil_append]
        exact lookup_if_chunk _ _ _ _ (by decide)
      · have h3' : (uniq L.streams).isEmpty = false := by
          simpa using h3
        simp only [h3', Bool.false_eq_true, if_false, List.cons_append]
        exact lookupField_cons_eq _ _ _
    · rw [lookupField_append_none _ _ _ (lookup_if_chunk _ _ _ _ (by decide)),
          lookupField_append_none _ _ _ (lookup_if_chunk _ _ _ _ (by decide)),
          lookupField_append_none _ _ _ (lookup_if_chunk _ _ _ _ (by decide))]
      by_cases h4 : (uniq L.strategy_types).isEmpty
      · simp only [h4, if_true]
        rfl
      · have h4' : (uniq L.strategy_types).isEmpty = false := by
          simpa using h4
        simp only [h4', Bool.false_eq_true, if_false]
        exact lookupField_cons_eq _ _ _

theorem uniq_uniq (l : List JVal) : uniq (uniq l) = uniq l :=
  uniq_id_of_nodup _ (uniqAux_keys_nodup [] l)

theorem uniq_claim_chunk (u : List JVal) (hu : uniq u = u) :
    uniq (claimContribAmended
      (if u.isEmpty then none else some (.jarr u))) = u := by
  by_cases h : u.isEmpty
  · have : u = [] := by simpa [List.isEmpty_iff] using h
    subst this
    rfl
  · have h' : u.isEmpty = false := by simpa using h
    simp only [h', Bool.false_eq_true, if_false, claimContribAmended]
    exact hu

theorem streams_second_pass (u ys : List JVal) (hu : uniq u = u) (hne : u ≠ [])
    (hys : ys = match pySorted u with | .ok zs => zs | .error _ => u) :
    uniq ys = ys ∧ ys ≠ [] ∧
    (match pySorted ys with | .ok zs => zs | .error _ => ys) = ys := by
  rcases hs : pySorted u with er | zs
  · rw [hs] at hys
    subst hys
    exact ⟨hu, hne, by rw [hs]⟩
  · rw [hs] at hys
    subst hys
    obtain ⟨hch, hperm⟩ := pySorted_chain u ys hs
    refine ⟨?_, ?_, ?_⟩
    · apply uniq_id_of_nodup
      have hpk : (ys.map pyKey).Perm (u.map pyKey) := hperm.map pyKey
      have hund : (u.map pyKey).Nodup := by
        have := uniqAux_keys_nodup [] u
        rw [show uniqAux [] u = uniq u from rfl, hu] at this
        exact this
      exact hpk.nodup_iff.mpr hund
    · intro hznil
      rw [hznil] at hperm
      exact hne (List.Perm.eq_nil hperm.symm)
    · rw [pySorted_idem u ys hs]

/-- Claim C10 (amended): re-aggregating the records of one successful
merge reproduces the combined profile's four tracked fields, provided the
fallback asymmetry cannot fire on the second pass: either the first pass
collected a non-empty `streams` list (so the combined profile carries a
`streams` key), or no input record has a usable `args.strategy.streams`
value. -/
theorem aggregation_idempotent_amended (d : String) (files : List InputFile)
    (bs : List Rec) (cp : Rec) (out : JVal) (recs : List Rec)
    (hbs : collectBenchmarks files = .ok bs)
    (hcp : combined_profile bs = .ok cp)
    (hm : merge_benchmark_files d files = .ok out)
    (hout : out = .jobj [("benchmarks", .jarr (recs.map JVal.jobj))])
    (hside : lookupField cp "streams" = none →
      ∀ b ∈ bs, noStrategyStreams b = true) :
    ∃ cp2, combined_profile recs = .ok cp2 ∧
      lookupField cp2 "measured_rates" = lookupField cp "measured_rates" ∧
      lookupField cp2 "measured_concurrencies" =
        lookupField cp "measured_concurrencies" ∧
      lookupField cp2 "streams" = lookupField cp "streams" ∧
      lookupField cp2 "strategy_types" = lookupField cp "strategy_types" := by
  obtain ⟨bs2, cpb, outs, hbs2, hemp, hcpb, houts, hout2⟩ :=
    merge_ok_parts d files out hm
  rw [hbs] at hbs2
  injection hbs2 with hbs2
  subst hbs2
  rw [hcp] at hcpb
  injection hcpb with hcpb
  subst hcpb
  rw [hout] at hout2
  have hinj : Function.Injective JVal.jobj := fun a b h => by injection h
  simp only [JVal.jobj.injEq, List.cons.injEq, Prod.mk.injEq, JVal.jarr.injEq,
    true_and, and_true] at hout2
  have hrecs : recs = outs.map (fun b => setKey b "__combined_from"
      (.jstr (basename (rstripSlashes d)))) :=
    List.map_injective_iff.mpr hinj hout2
  rcases hL : collectLists bs with e | L
  · rw [combined_profile] at hcp
    simp [hL, bind, Except.bind] at hcp
  obtain ⟨cpf, hcpf, h1, h2, h3, h4⟩ := combined_profile_fields bs L hL
  rw [hcp] at hcpf
  injection hcpf with hcpf
  subst hcpf
  have hnn : lookupField cp "streams" ≠ some .jnull := by
    rw [h3]
    by_cases h : (uniq L.streams).isEmpty <;> simp [h]
  have hf2 := mapM_ok_forall2 (attachProfile cp) bs outs houts
  have hrec : ∀ r ∈ recs, recordSweep r = .ok
      (claimContribAmended (lookupField cp "measured_rates"),
       claimContribAmended (lookupField cp "measured_concurrencies"),
       claimContribAmended (lookupField cp "streams"),
       claimContribAmended (lookupField cp "strategy_types")) := by
    intro r hr
    rw [hrecs] at hr
    rcases List.mem_map.mp hr with ⟨o, ho, rfl⟩
    rcases forall2_mem_right hf2 o ho with ⟨x, hx, hax⟩
    exact recordSweep_output cp x o _ hax hnn (fun hn => hside hn x hx)
  have hL2 := collect_const_go _ _ _ _ recs ⟨[], [], [], []⟩ hrec
  have hne_bs : bs ≠ [] := by
    intro hc
    rw [hc] at hemp
    simp at hemp
  have hlenrecs : recs.length = bs.length := by
    rw [hrecs, List.length_map, hf2.length_eq]
  obtain ⟨m, hm1⟩ : ∃ m, recs.length = m + 1 := by
    refine ⟨bs.length - 1, ?_⟩
    rw [hlenrecs]
    have : bs.length ≠ 0 := fun h => hne_bs (List.length_eq_zero.mp h)
    omega
  rw [hm1] at hL2
  have hL2a : collectLists recs = Except.ok
      ⟨(List.replicate (m + 1)
          (claimContribAmended (lookupField cp "measured_rates"))).join,
        (List.replicate (m + 1)
          (claimContribAmended (lookupField cp "measured_concurrencies"))).join,
        (List.replicate (m + 1)
          (claimContribAmended (lookupField cp "streams"))).join,
        (List.replicate (m + 1)
          (claimContribAmended (lookupField cp "strategy_types"))).join⟩ := hL2
  obtain ⟨cp2, hcp2, g1, g2, g3, g4⟩ := combined_profile_fields recs _ hL2a
  have g1a : lookupField cp2 "measured_rates" =
      if (uniq ((List.replicate (m + 1)
          (claimContribAmended (lookupField cp "measured_rates"))).join)).isEmpty
      then none
      else some (.jarr (uniq ((List.replicate (m + 1)
          (claimContribAmended (lookupField cp "measured_rates"))).join))) := g1
  have g2a : lookupField cp2 "measured_concurrencies" =
      if (uniq ((List.replicate (m + 1)
          (claimContribAmended
            (lookupField cp "measured_concurrencies"))).join)).isEmpty
      then none
      else some (.jarr (uniq ((List.replicate (m + 1)
          (claimContribAmended
            (lookupField cp "measured_concurrencies"))).join))) := g2
  have g3a : lookupField cp2 "streams" =
      if (uniq ((List.replicate (m + 1)
          (claimContribAmended (lookupField cp "streams"))).join)).isEmpty
      then none
      else some (.jarr (match pySorted (uniq ((List.replicate (m + 1)
          (claimContribAmended (lookupField cp "streams"))).join)) with
        | .ok ys => ys
        | .error _ => uniq ((List.replicate (m + 1)
            (claimContribAmended (lookupField cp "streams"))).join))) := g3
  have g4a : lookupField cp2 "strategy_types" =
      if (uniq ((List.replicate (m + 1)
          (claimContribAmended (lookupField cp "strategy_types"))).join)).isEmpty
      then none
      else some (.jarr (uniq ((List.replicate (m + 1)
          (claimContribAmended (lookupField cp "strategy_types"))).join))) := g4
  refine ⟨cp2, hcp2, ?_, ?_, ?_, ?_⟩
  · have e1 : uniq ((List.replicate (m + 1)
        (claimContribAmended (lookupField cp "measured_rates"))).join) =
        uniq L.measured_rates := by
      rw [uniq_join_replicate, h1]
      exact uniq_claim_chunk _ (uniq_uniq _)
    rw [g1a]
    simp only [e1]
    exact h1.symm
  · have e2 : uniq ((List.replicate (m + 1)
        (claimContribAmended (lookupField cp "measured_concurrencies"))).join) =
        uniq L.measured_concurrencies := by
      rw [uniq_join_replicate, h2]
      exact uniq_claim_chunk _ (uniq_uniq _)
    rw [g2a]
    simp only [e2]
    exact h2.symm
  · by_cases hse : (uniq L.streams).isEmpty
    · have hlook : lookupField cp "streams" = none := by
        rw [h3]
        simp [hse]
      have e3 : uniq ((List.replicate (m + 1)
          (claimContribAmended (lookupField cp "streams"))).join) = [] := by
        rw [uniq_join_replicate, hlook]
        rfl
      rw [g3a]
      simp only [e3]
      rw [hlook]
      simp
    · have hne2 : uniq L.streams ≠ [] := by
        simpa [List.isEmpty_iff] using hse
      have hse' : (uniq L.streams).isEmpty = false := by simpa using hse
      have hlook : lookupField cp "streams" =
          some (.jarr (match pySorted (uniq L.streams) with
                       | .ok ys => ys
                       | .error _ => uniq L.streams)) := by
        rw [h3]
        simp only [hse', Bool.false_eq_true, if_false]
      obtain ⟨hu_ys, hys_ne, hmatch⟩ :=
        streams_second_pass (uniq L.streams) _ (uniq_uniq _) hne2 rfl
      have e3 : uniq ((List.replicate (m + 1)
          (claimContribAmended (lookupField cp "streams"))).join) =
          (match pySorted (uniq L.streams) with
           | .ok ys => ys
           | .error _ => uniq L.streams) := by
        rw [uniq_join_replicate, hlook]
        exact hu_ys
      have hysE : (match pySorted (uniq L.streams) with
          | .ok ys => ys
          | .error _ => uniq L.streams).isEmpty = false := by
        simpa [List.isEmpty_iff] using hys_ne
      rw [g3a]
      simp only [e3, hysE, Bool.false_eq_true, if_false, hmatch]
      exact hlook.symm
  · have e4 : uniq ((List.replicate (m + 1)
        (claimContribAmended (lookupField cp "strategy_types"))).join) =
        uniq L.strategy_types := by
      rw [uniq_join_replicate, h4]
      exact uniq_claim_chunk _ (uniq_uniq _)
    rw [g4a]
    simp only [e4]
    exact h4.symm

/-- Concrete combined profile for the C10 witness run. -/
def c10cp : Rec :=
  [("type_", JVal.jstr "concurrent"), ("completed_strategies", JVal.jint 1),
   ("streams", JVal.jarr [JVal.jint 1, JVal.jint 2])]

/-- Concrete output record of the C10 witness run. -/
def c10rec : Rec :=
  [("type_", JVal.jstr "x"),
   ("args", JVal.jobj [("profile", JVal.jobj c10cp)]),
   ("__source_file", JVal.jstr "a"),
   ("__combined_from", JVal.jstr "d")]

/-- Concrete input file of the C10 witness run. -/
def c10file : InputFile :=
  ⟨"d/a", some (.jobj [("type_", .jstr "x"),
    ("args", .jobj [("profile", .jobj
      [("streams", .jarr [.jint 2, .jint 1])])])])⟩

theorem aggregation_idempotent_amended_witness :
    ∃ cp2, combined_profile [c10rec] = .ok cp2 ∧
      lookupField cp2 "measured_rates" = lookupField c10cp "measured_rates" ∧
      lookupField cp2 "measured_concurrencies" =
        lookupField c10cp "measured_concurrencies" ∧
      lookupField cp2 "streams" = lookupField c10cp "streams" ∧
      lookupField cp2 "strategy_types" = lookupField c10cp "strategy_types" :=
  aggregation_idempotent_amended "d" [c10file]
    [[("type_", JVal.jstr "x"),
      ("args", JVal.jobj [("profile", JVal.jobj
        [("streams", JVal.jarr [JVal.jint 2, JVal.jint 1])])]),
      ("__source_file", JVal.jstr "a")]]
    c10cp (.jobj [("benchmarks", .jarr [.jobj c10rec])]) [c10rec]
    (by decide) (by decide) (by decide) rfl
    (fun hn => absurd hn (by decide))

/-- A Python value as seen from a container in step 5 (lines 131-139):
either an immediate immutable scalar, or a reference to a mutable object
on the heap (addresses index `Heap`). -/
inductive PVal where
  | pnull : PVal
  | pb : Bool → PVal
  | pint : Int → PVal
  | pfloat : Rat → PVal
  | pstr : String → PVal
  | ref : Nat → PVal
deriving DecidableEq, Repr

/-- A mutable Python object: a list or a dict (insertion-ordered). -/
inductive PObj where
  | plist : List PVal → PObj
  | pdict : List (String × PVal) → PObj
deriving DecidableEq, Repr

/-- The heap of step 5: object `a` lives at index `a`; allocation appends. -/
abbrev Heap := List PObj

/-- Field lookup in a dict's (insertion-ordered, duplicate-free) entries. -/
def lookupP (fs : List (String × PVal)) (k : String) : Option PVal :=
  (fs.find? (fun p => p.1 == k)).map (fun p => p.2)

/-- `d[k] = v` on a dict's entries: replace in place, else append. -/
def setKeyP : List (String × PVal) → String → PVal → List (String × PVal)
  | [], k, v => [(k, v)]
  | p :: ps, k, v => if p.1 == k then (k, v) :: ps else p :: setKeyP ps k v

/-- One iteration of the loop of lines 132-136 on record address `b`,
`cfs` being the entries of `combined_profile`:
`b_copy = dict(b)` allocates a shallow copy of the record (same values,
hence the same references); `b_args = b_copy.setdefault('args', {})`
returns the stored `args` object itself when the key is present (the
discarded default dict is not modelled), and allocates a fresh empty dict
into the copy otherwise; `b_args['profile'] = dict(combined_profile)`
allocates a fresh shallow copy of the combined profile (sharing its
entry values) and then mutates the `args` object in place; item
assignment on a non-dict raises `TypeError`. Returns the new heap and
the copy's address. -/
def step5rec (cfs : List (String × PVal)) (h : Heap) (b : Nat) :
    Except PyErr (Heap × Nat) :=
  match h[b]? with
  | some (.pdict fs) =>
    match lookupP fs "args" with
    | some (.ref aA) =>
      match h[aA]? with
      | some (.pdict afs) =>
        .ok ((h ++ [PObj.pdict fs, PObj.pdict cfs]).set aA
              (.pdict (setKeyP afs "profile" (.ref (h.length + 1)))),
             h.length)
      | _ => .error .typeError
    | some _ => .error .typeError
    | none =>
      .ok (h ++ [PObj.pdict (setKeyP fs "args" (.ref (h.length + 1))),
                 PObj.pdict [("profile", .ref (h.length + 2))],
                 PObj.pdict cfs],
           h.length)
  | _ => .error .typeError

/-- Lines 131-136: the output loop over the accumulated record
addresses, collecting the copies' addresses in order. -/
def step5 (cfs : List (String × PVal)) :
    Heap → List Nat → Except PyErr (Heap × List Nat)
  | h, [] => .ok (h, [])
  | h, b :: bs => do
    let (h1, c) ← step5rec cfs h b
    let (h2, cs) ← step5 cfs h1 bs
    pure (h2, c :: cs)

/-- Lines 138-139: `b['__combined_from'] = ...` on every output record. -/
def tagCombined (v : PVal) : Heap → List Nat → Except PyErr Heap
  | h, [] => .ok h
  | h, o :: os =>
    match h[o]? with
    | some (.pdict fs) =>
      tagCombined v (h.set o (.pdict (setKeyP fs "__combined_from" v))) os
    | _ => .error .typeError

/-- All of step 5 (lines 131-139): produce the output records, then tag
each with `__combined_from`. -/
def step5run (cfs : List (String × PVal)) (v : PVal) (h : Heap)
    (bsA : List Nat) : Except PyErr (Heap × List Nat) := do
  let (h1, outs) ← step5 cfs h bsA
  let h2 ← tagCombined v h1 outs
  pure (h2, outs)

/-- The addresses referenced directly by a dict's entries. -/
def refsOf (fs : List (String × PVal)) : List Nat :=
  fs.filterMap (fun p => match p.2 with | .ref a => some a | _ => none)

/-- Record address `b` holds a dict whose `args` entry references the
dict at address `aA`. -/
def recArgsOk (h : Heap) (b aA : Nat) : Bool :=
  match h[b]? with
  | some (.pdict fs) =>
    match lookupP fs "args" with
    | some (.ref a) =>
      a == aA && (match h[a]? with | some (.pdict _) => true | _ => false)
    | _ => false
  | _ => false

/-- Claim C6 as one proposition: over every step-5 run, (a) no
pre-existing object is mutated (the original parsed input and the
accumulated records are read-only); (b) each output record's `args` is a
fresh shallow copy, i.e. a different object from the stored record's
`args`; (c) two distinct output records share no composite profile
instance: their `args.profile` dicts are distinct objects and reference
no common address, so mutating one cannot affect the other. -/
def C6Statement : Prop :=
  ∀ (cfs : List (String × PVal)) (v : PVal) (h h' : Heap)
    (bsA outs : List Nat),
    step5run cfs v h bsA = .ok (h', outs) →
    (∀ a, a < h.length → h'[a]? = h[a]?) ∧
    (∀ i (hb : i < bsA.length) (ho : i < outs.length) fs aA ofs oaA,
      h[bsA.get ⟨i, hb⟩]? = some (.pdict fs) →
      lookupP fs "args" = some (.ref aA) →
      h'[outs.get ⟨i, ho⟩]? = some (.pdict ofs) →
      lookupP ofs "args" = some (.ref oaA) →
      oaA ≠ aA) ∧
    (∀ i j (hi : i < outs.length) (hj : j < outs.length), i ≠ j →
      ∀ ofsi oai afsi pi pfsi ofsj oaj afsj pj pfsj,
      h'[outs.get ⟨i, hi⟩]? = some (.pdict ofsi) →
      lookupP ofsi "args" = some (.ref oai) →
      h'[oai]? = some (.pdict afsi) →
      lookupP afsi "profile" = some (.ref pi) →
      h'[pi]? = some (.pdict pfsi) →
      h'[outs.get ⟨j, hj⟩]? = some (.pdict ofsj) →
      lookupP ofsj "args" = some (.ref oaj) →
      h'[oaj]? = some (.pdict afsj) →
      lookupP afsj "profile" = some (.ref pj) →
      h'[pj]? = some (.pdict pfsj) →
      pi ≠ pj ∧ ∀ a, a ∈ refsOf pfsi → a ∉ refsOf pfsj)

/-- Counterexample to C6 as stated: two records whose `args` dicts exist;
`setdefault` hands back the stored `args` object itself, which is then
mutated in place (`profile` is set on it), so a pre-existing object
changes, the output record's `args` is the very same object as the
input's, and the two fresh profile copies both reference the combined
profile's inner `streams` list. Refuted here through conjunct (a): the
args dict at address 2 is mutated. -/
theorem step5_no_mutation_counterexample : ¬ C6Statement := by
  intro hc
  obtain ⟨hmut, _, _⟩ := hc [("streams", PVal.ref 0)] (PVal.pstr "d")
    [.plist [.pint 1],
     .pdict [("args", .ref 2)],
     .pdict [],
     .pdict [("args", .ref 4)],
     .pdict []]
    [.plist [.pint 1],
     .pdict [("args", PVal.ref 2)],
     .pdict [("profile", PVal.ref 6)],
     .pdict [("args", PVal.ref 4)],
     .pdict [("profile", PVal.ref 8)],
     .pdict [("args", PVal.ref 2), ("__combined_from", PVal.pstr "d")],
     .pdict [("streams", PVal.ref 0)],
     .pdict [("args", PVal.ref 4), ("__combined_from", PVal.pstr "d")],
     .pdict [("streams", PVal.ref 0)]]
    [1, 3] [5, 7] (by decide)
  have := hmut 2 (by decide)
  exact absurd this (by decide)

theorem getP_lt (h : Heap) (a : Nat) (o : PObj) (hg : h[a]? = some o) :
    a < h.length := by
  by_contra hc
  rw [List.getElem?_eq_none (Nat.le_of_not_lt hc)] at hg
  cases hg

theorem recArgsOk_elim (h : Heap) (b aA : Nat)
    (hok : recArgsOk h b aA = true) :
    ∃ fs afs, h[b]? = some (.pdict fs) ∧
      lookupP fs "args" = some (.ref aA) ∧ h[aA]? = some (.pdict afs) := by
  unfold recArgsOk at hok
  rcases hb : h[b]? with _ | o
  · rw [hb] at hok; cases hok
  · rw [hb] at hok
    cases o with
    | plist xs => cases hok
    | pdict fs =>
      have hok2 : (match lookupP fs "args" with
          | some (PVal.ref a) =>
            a == aA &&
              (match h[a]? with | some (PObj.pdict _) => true | _ => false)
          | _ => false) = true := hok
      rcases ha : lookupP fs "args" with _ | w
      · rw [ha] at hok2; cases hok2
      · rw [ha] at hok2
        cases w with
        | ref a =>
          have hok3 : (a == aA &&
              (match h[a]? with
               | some (PObj.pdict _) => true
               | _ => false)) = true := hok2
          simp only [Bool.and_eq_true, beq_iff_eq] at hok3
          obtain ⟨rfl, hok3⟩ := hok3
          rcases haA : h[a]? with _ | o2
          · rw [haA] at hok3; cases hok3
          · rw [haA] at hok3
            cases o2 with
            | pdict afs => exact ⟨fs, afs, rfl, ha, rfl⟩
            | plist xs => cases hok3
        | pnull => cases hok2
        | pb b2 => cases hok2
        | pint n => cases hok2
        | pfloat q => cases hok2
        | pstr s => cases hok2

theorem recArgsOk_intro (h : Heap) (b aA : Nat)
    (fs afs : List (String × PVal))
    (hb : h[b]? = some (.pdict fs))
    (ha : lookupP fs "args" = some (.ref aA))
    (haA : h[aA]? = some (.pdict afs)) : recArgsOk h b aA = true := by
  simp [recArgsOk, hb, ha, haA]

theorem zip_right_mem {α β : Type _} :
    ∀ (l1 : List α) (l2 : List β), l1.length = l2.length →
    ∀ y ∈ l2, ∃ x, (x, y) ∈ l1.zip l2 := by
  intro l1
  induction l1 with
  | nil =>
    intro l2 hlen y hy
    cases l2 with
    | nil => cases hy
    | cons z zs => cases hlen
  | cons x xs ih =>
    intro l2 hlen y hy
    cases l2 with
    | nil => cases hy
    | cons z zs =>
      rcases List.mem_cons.mp hy with rfl | hy
      · exact ⟨x, List.mem_cons_self _ _⟩
      · obtain ⟨x', hx'⟩ := ih zs (by simpa using hlen) y hy
        exact ⟨x', List.mem_cons_of_mem _ hx'⟩

theorem setAppend2_shape (h : Heap) (x y z : PObj) (aA : Nat)
    (haA : aA < h.length) :
    ((h ++ [x, y]).set aA z).length = h.length + 2 ∧
    ((h ++ [x, y]).set aA z)[aA]? = some z ∧
    (∀ a, a ≠ aA → a < h.length →
      ((h ++ [x, y]).set aA z)[a]? = h[a]?) ∧
    ((h ++ [x, y]).set aA z)[h.length]? = some x ∧
    ((h ++ [x, y]).set aA z)[h.length + 1]? = some y := by
  refine ⟨?_, ?_, ?_, ?_, ?_⟩
  · simp [List.length_set, List.length_append]
  · rw [List.getElem?_set_eq (by simp [List.length_append]; omega)]
  · intro a hne hlt
    rw [List.getElem?_set_ne (fun hc => hne hc.symm)]
    exact List.getElem?_append_left hlt
  · rw [List.getElem?_set_ne (Nat.ne_of_lt haA)]
    rw [List.getElem?_append_right (Nat.le_refl _)]
    have he0 : h.length - h.length = 0 := by omega
    rw [he0]
    rfl
  · rw [List.getElem?_set_ne (Nat.ne_of_lt (by omega))]
    rw [List.getElem?_append_right (by omega)]
    have he : h.length + 1 - h.length = 1 := by omega
    rw [he]
    rfl

theorem lookupP_setKeyP_self (fs : List (String × PVal)) (k : String)
    (v : PVal) : lookupP (setKeyP fs k v) k = some v := by
  induction fs with
  | nil => simp [setKeyP, lookupP, List.find?_cons]
  | cons p ps ih =>
    by_cases hpk : p.1 == k
    · simp [setKeyP, hpk, lookupP, List.find?_cons]
    · simp only [setKeyP, hpk, Bool.false_eq_true, if_false]
      simpa [lookupP, List.find?_cons, hpk] using ih

theorem lookupP_setKeyP_other (fs : List (String × PVal)) (k k' : String)
    (v : PVal) (hne : (k' == k) = false) :
    lookupP (setKeyP fs k v) k' = lookupP fs k' := by
  have h1 : k' ≠ k := beq_eq_false_iff_ne.mp hne
  have hkk : (k == k') = false := beq_eq_false_iff_ne.mpr (fun hc => h1 hc.symm)
  induction fs with
  | nil => simp [setKeyP, lookupP, List.find?_cons, hkk]
  | cons p ps ih =>
    by_cases hpk : p.1 == k
    · have hp : (p.1 == k') = false := by
        have : p.1 = k := by simpa using hpk
        rw [this]
        exact hkk
      simp [setKeyP, hpk, lookupP, List.find?_cons, hkk, hp]
    · simp only [setKeyP, hpk, Bool.false_eq_true, if_false]
      by_cases hp : p.1 == k'
      · simp [lookupP, List.find?_cons, hp]
      · simpa [lookupP, List.find?_cons, hp] using ih

theorem step5_spec (cfs : List (String × PVal)) :
    ∀ (bsA aAs : List Nat) (h h' : Heap) (outs : List Nat),
    bsA.length = aAs.length →
    (∀ p ∈ bsA.zip aAs, recArgsOk h p.1 p.2 = true) →
    aAs.Nodup →
    (∀ b ∈ bsA, b ∉ aAs) →
    step5 cfs h bsA = .ok (h', outs) →
    outs = (List.range bsA.length).map (fun i => h.length + 2 * i) ∧
    h'.length = h.length + 2 * bsA.length ∧
    (∀ a, a < h.length → a ∉ aAs → h'[a]? = h[a]?) ∧
    (∀ p ∈ (bsA.zip aAs).zip outs,
      ∃ fs afs, h[p.1.1]? = some (.pdict fs) ∧
        lookupP fs "args" = some (.ref p.1.2) ∧
        h[p.1.2]? = some (.pdict afs) ∧
        h'[p.2]? = some (.pdict fs) ∧
        h'[p.1.2]? = some (.pdict (setKeyP afs "profile" (.ref (p.2 + 1)))) ∧
        h'[p.2 + 1]? = some (.pdict cfs)) := by
  intro bsA
  induction bsA with
  | nil =>
    intro aAs h h' outs hlen hrecs hnd hdisj hstep
    simp only [step5, Except.ok.injEq, Prod.mk.injEq] at hstep
    obtain ⟨rfl, rfl⟩ := hstep
    exact ⟨by simp, by simp, fun a _ _ => rfl, by simp⟩
  | cons b bs ih =>
    intro aAs h h' outs hlen hrecs hnd hdisj hstep
    cases aAs with
    | nil => simp at hlen
    | cons aA aAs' =>
      obtain ⟨fs, afs, hb, ha, haA⟩ := recArgsOk_elim h b aA
        (hrecs (b, aA) (by rw [List.zip_cons_cons]; exact List.mem_cons_self _ _))
      have haAlt : aA < h.length := getP_lt _ _ _ haA
      have hblt : b < h.length := getP_lt _ _ _ hb
      have hrec1 : step5rec cfs h b = .ok
          ((h ++ [PObj.pdict fs, PObj.pdict cfs]).set aA
            (.pdict (setKeyP afs "profile" (.ref (h.length + 1)))), h.length) := by
        simp [step5rec, hb, ha, haA]
      simp only [step5, hrec1, bind, Except.bind, pure, Except.pure] at hstep
      rcases hrest : step5 cfs ((h ++ [PObj.pdict fs, PObj.pdict cfs]).set aA
          (.pdict (setKeyP afs "profile" (.ref (h.length + 1))))) bs with e | pr
      · rw [hrest] at hstep
        cases hstep
      · obtain ⟨h2, cs⟩ := pr
        rw [hrest] at hstep
        simp only [Except.ok.injEq, Prod.mk.injEq] at hstep
        obtain ⟨rfl, rfl⟩ := hstep
        obtain ⟨s1, s2, s3, s4, s5⟩ := setAppend2_shape h (PObj.pdict fs)
          (PObj.pdict cfs)
          (.pdict (setKeyP afs "profile" (.ref (h.length + 1)))) aA haAlt
        have haAs'lt : ∀ y ∈ aAs', y < h.length := by
          intro y hy
          obtain ⟨x, hx⟩ := zip_right_mem bs aAs' (by simpa using hlen) y hy
          obtain ⟨fs2, afs2, _, _, hyA⟩ := recArgsOk_elim h x y
            (hrecs (x, y) (by rw [List.zip_cons_cons]; exact List.mem_cons_of_mem _ hx))
          exact getP_lt _ _ _ hyA
        have hrecs' : ∀ p ∈ bs.zip aAs',
            recArgsOk ((h ++ [PObj.pdict fs, PObj.pdict cfs]).set aA
              (.pdict (setKeyP afs "profile" (.ref (h.length + 1)))))
              p.1 p.2 = true := by
          intro p hp
          obtain ⟨fs2, afs2, hb2, ha2, haA2⟩ := recArgsOk_elim h p.1 p.2
            (hrecs p (by rw [List.zip_cons_cons]; exact List.mem_cons_of_mem _ hp))
          have hblt2 : p.1 < h.length := getP_lt _ _ _ hb2
          have haAlt2 : p.2 < h.length := getP_lt _ _ _ haA2
          have hbne : p.1 ≠ aA := by
            have hmem : p.1 ∈ b :: bs :=
              List.mem_cons_of_mem _ (List.mem_zip hp).1
            intro hc
            exact hdisj p.1 hmem (hc ▸ List.mem_cons_self _ _)
          have haAne : p.2 ≠ aA := by
            have hmem2 : p.2 ∈ aAs' := (List.mem_zip hp).2
            intro hc
            rw [hc] at hmem2
            exact (List.nodup_cons.mp hnd).1 hmem2
          refine recArgsOk_intro _ p.1 p.2 fs2 afs2 ?_ ha2 ?_
          · rw [s3 p.1 hbne hblt2]
            exact hb2
          · rw [s3 p.2 haAne haAlt2]
            exact haA2
        obtain ⟨ho, hl, hf, hpr⟩ := ih aAs' _ h2 cs (by simpa using hlen)
          hrecs' (List.nodup_cons.mp hnd).2
          (fun b' hb2 hc => hdisj b' (List.mem_cons_of_mem _ hb2)
            (List.mem_cons_of_mem _ hc))
          hrest
        refine ⟨?_, ?_, ?_, ?_⟩
        · rw [ho, s1]
          simp only [List.length_cons, List.range_succ_eq_map, List.map_cons,
            List.map_map]
          congr 1
          have he : ((fun i => h.length + 2 * i) ∘ Nat.succ) =
              (fun i => h.length + 2 + 2 * i) := funext fun i => by
            simp [Function.comp]
            omega
          rw [he]
        · rw [hl, s1]
          simp only [List.length_cons]
          omega
        · intro a hlt hnin
          have hne : a ≠ aA := fun hc => hnin (hc ▸ List.mem_cons_self _ _)
          have hnin' : a ∉ aAs' := fun hc => hnin (List.mem_cons_of_mem _ hc)
          rw [hf a (by omega) hnin', s3 a hne hlt]
        · intro p hp2
          rw [List.zip_cons_cons, List.zip_cons_cons] at hp2
          rcases List.mem_cons.mp hp2 with rfl | hp2
          · refine ⟨fs, afs, hb, ha, haA, ?_, ?_, ?_⟩
            · rw [hf h.length (by omega)
                (fun hc => absurd (haAs'lt _ hc) (by omega))]
              exact s4
            · rw [hf aA (by omega) (List.nodup_cons.mp hnd).1]
              exact s2
            · rw [hf (h.length + 1) (by omega)
                (fun hc => absurd (haAs'lt _ hc) (by omega))]
              exact s5
          · obtain ⟨fs2, afs2, hb1, ha1, haA1, w1, w2, w3⟩ := hpr p hp2
            have hpz : p.1 ∈ bs.zip aAs' := (List.mem_zip hp2).1
            obtain ⟨fs3, afs3, hb3, ha3, haA3⟩ := recArgsOk_elim h p.1.1 p.1.2
              (hrecs p.1 (by rw [List.zip_cons_cons]; exact List.mem_cons_of_mem _ hpz))
            have hblt3 : p.1.1 < h.length := getP_lt _ _ _ hb3
            have haAlt3 : p.1.2 < h.length := getP_lt _ _ _ haA3
            have hbne : p.1.1 ≠ aA := by
              have hmem : p.1.1 ∈ b :: bs :=
                List.mem_cons_of_mem _ (List.mem_zip hpz).1
              intro hc
              exact hdisj p.1.1 hmem (hc ▸ List.mem_cons_self _ _)
            have haAne : p.1.2 ≠ aA := by
              have hmem2 : p.1.2 ∈ aAs' := (List.mem_zip hpz).2
              intro hc
              rw [hc] at hmem2
              exact (List.nodup_cons.mp hnd).1 hmem2
            rw [s3 p.1.1 hbne hblt3] at hb1
            rw [s3 p.1.2 haAne haAlt3] at haA1
            exact ⟨fs2, afs2, hb1, ha1, haA1, w1, w2, w3⟩

theorem tagCombined_spec (v : PVal) :
    ∀ (outs : List Nat) (h h2 : Heap),
    outs.Nodup →
    tagCombined v h outs = .ok h2 →
    (∀ a, a ∉ outs → h2[a]? = h[a]?) ∧
    (∀ o ∈ outs, ∀ fs, h[o]? = some (.pdict fs) →
      h2[o]? = some (.pdict (setKeyP fs "__combined_from" v))) := by
  intro outs
  induction outs with
  | nil =>
    intro h h2 hnd htag
    simp only [tagCombined, Except.ok.injEq] at htag
    subst htag
    exact ⟨fun a _ => rfl, by simp⟩
  | cons o os ih =>
    intro h h2 hnd htag
    unfold tagCombined at htag
    rcases hg : h[o]? with _ | obj
    · rw [hg] at htag
      cases htag
    · rw [hg] at htag
      cases obj with
      | plist xs => cases htag
      | pdict fs0 =>
        obtain ⟨hfr, hup⟩ := ih (h.set o (.pdict (setKeyP fs0 "__combined_from" v)))
          h2 (List.nodup_cons.mp hnd).2 htag
        have holt : o < h.length := getP_lt _ _ _ hg
        constructor
        · intro a hna
          have hne : a ≠ o := fun hc => hna (hc ▸ List.mem_cons_self _ _)
          have hna' : a ∉ os := fun hc => hna (List.mem_cons_of_mem _ hc)
          rw [hfr a hna', List.getElem?_set_ne (fun hc => hne hc.symm)]
        · intro o' ho' fs hfs
          rcases List.mem_cons.mp ho' with rfl | ho'
          · rw [hfs] at hg
            injection hg with hg
            injection hg with hg
            subst hg
            rw [hfr o' (List.nodup_cons.mp hnd).1]
            exact List.getElem?_set_eq holt
          · have hne : o ≠ o' := by
              intro hc
              rw [hc] at hnd
              exact (List.nodup_cons.mp hnd).1 ho'
            refine hup o' ho' fs ?_
            rw [List.getElem?_set_ne hne]
            exact hfs

/-- Claim C6 (amended): in step 5, each output record is a fresh shallow
copy of the accumulated record, but `setdefault` hands back the stored
`args` dict itself, so the output record's `args` is the same object as
the input record's, and that pre-existing dict is mutated in place (its
`profile` key is pointed at the fresh profile copy); every other
pre-existing object is untouched. Each output record gets its own fresh
shallow copy of the combined profile at the odd offset after its own
address — pairwise distinct dict objects whose entries are the combined
profile's entries verbatim, so the inner referenced values are shared by
every output record's profile. -/
theorem step5_aliasing_amended (cfs : List (String × PVal)) (v : PVal)
    (bsA aAs : List Nat) (h h' : Heap) (outs : List Nat)
    (hlen : bsA.length = aAs.length)
    (hrecs : ∀ p ∈ bsA.zip aAs, recArgsOk h p.1 p.2 = true)
    (hnd : aAs.Nodup)
    (hdisj : ∀ b ∈ bsA, b ∉ aAs)
    (hrun : step5run cfs v h bsA = .ok (h', outs)) :
    outs = (List.range bsA.length).map (fun i => h.length + 2 * i) ∧
    (∀ a, a < h.length → a ∉ aAs → h'[a]? = h[a]?) ∧
    (∀ p ∈ (bsA.zip aAs).zip outs,
      ∃ fs afs, h[p.1.1]? = some (.pdict fs) ∧
        lookupP fs "args" = some (.ref p.1.2) ∧
        h[p.1.2]? = some (.pdict afs) ∧
        h'[p.2]? = some (.pdict (setKeyP fs "__combined_from" v)) ∧
        lookupP (setKeyP fs "__combined_from" v) "args" =
          some (.ref p.1.2) ∧
        h'[p.1.2]? = some (.pdict (setKeyP afs "profile" (.ref (p.2 + 1)))) ∧
        h'[p.2 + 1]? = some (.pdict cfs)) := by
  unfold step5run at hrun
  rcases hstep : step5 cfs h bsA with e | pr
  · rw [hstep] at hrun
    cases hrun
  · obtain ⟨h1, outs1⟩ := pr
    rw [hstep] at hrun
    simp only [bind, Except.bind] at hrun
    rcases htag : tagCombined v h1 outs1 with e | h2
    · rw [htag] at hrun
      cases hrun
    · rw [htag] at hrun
      simp only [pure, Except.pure, Except.ok.injEq, Prod.mk.injEq] at hrun
      obtain ⟨rfl, rfl⟩ := hrun
      obtain ⟨ho, hl, hf, hpr⟩ := step5_spec cfs bsA aAs h h1 outs1 hlen
        hrecs hnd hdisj hstep
      have hmemo : ∀ o ∈ outs1, ∃ i, i < bsA.length ∧ o = h.length + 2 * i := by
        intro o hmo
        rw [ho] at hmo
        rcases List.mem_map.mp hmo with ⟨i, hi, rfl⟩
        exact ⟨i, List.mem_range.mp hi, rfl⟩
      have hndo : outs1.Nodup := by
        rw [ho]
        exact (List.nodup_range _).map (fun a b hab => by omega)
      obtain ⟨tfr, tup⟩ := tagCombined_spec v outs1 h1 h2 hndo htag
      refine ⟨ho, ?_, ?_⟩
      · intro a hlt hnin
        have hno : a ∉ outs1 := by
          intro hc
          obtain ⟨i, _, hi⟩ := hmemo a hc
          omega
        rw [tfr a hno, hf a hlt hnin]
      · intro p hp
        obtain ⟨fs, afs, hb, ha, haA, w1, w2, w3⟩ := hpr p hp
        have hpo : p.2 ∈ outs1 := (List.mem_zip hp).2
        obtain ⟨i, hi, hpi⟩ := hmemo p.2 hpo
        have haAlt : p.1.2 < h.length := getP_lt _ _ _ haA
        refine ⟨fs, afs, hb, ha, haA, ?_, ?_, ?_, ?_⟩
        · exact tup p.2 hpo fs w1
        · rw [lookupP_setKeyP_other fs "__combined_from" "args" v (by decide)]
          exact ha
        · have hno : p.1.2 ∉ outs1 := by
            intro hc
            obtain ⟨j, _, hj⟩ := hmemo p.1.2 hc
            omega
          rw [tfr p.1.2 hno]
          exact w2
        · have hno : p.2 + 1 ∉ outs1 := by
            intro hc
            obtain ⟨j, _, hj⟩ := hmemo (p.2 + 1) hc
            omega
          rw [tfr (p.2 + 1) hno]
          exact w3

/-- Initial heap for the concrete step-5 run: a shared inner list at 0,
two records at 1 and 3, their args dicts at 2 and 4. -/
def c6heap : Heap :=
  [.plist [.pint 1],
   .pdict [("args", .ref 2)],
   .pdict [],
   .pdict [("args", .ref 4)],
   .pdict []]

/-- Final heap of that run: records copied to 5 and 7, fresh profile
copies at 6 and 8 (both referencing the list at 0), args dicts at 2 and 4
mutated in place. -/
def c6heapOut : Heap :=
  [.plist [.pint 1],
   .pdict [("args", .ref 2)],
   .pdict [("profile", .ref 6)],
   .pdict [("args", .ref 4)],
   .pdict [("profile", .ref 8)],
   .pdict [("args", .ref 2), ("__combined_from", .pstr "d")],
   .pdict [("streams", .ref 0)],
   .pdict [("args", .ref 4), ("__combined_from", .pstr "d")],
   .pdict [("streams", .ref 0)]]

theorem step5_aliasing_amended_witness :
    ([5, 7] : List Nat) =
      (List.range 2).map (fun i => c6heap.length + 2 * i) ∧
    (∀ a, a < c6heap.length → a ∉ ([2, 4] : List Nat) →
      c6heapOut[a]? = c6heap[a]?) ∧
    (∀ p ∈ ((([1, 3] : List Nat).zip [2, 4]).zip [5, 7]),
      ∃ fs afs, c6heap[p.1.1]? = some (.pdict fs) ∧
        lookupP fs "args" = some (.ref p.1.2) ∧
        c6heap[p.1.2]? = some (.pdict afs) ∧
        c6heapOut[p.2]? =
          some (.pdict (setKeyP fs "__combined_from" (.pstr "d"))) ∧
        lookupP (setKeyP fs "__combined_from" (.pstr "d")) "args" =
          some (.ref p.1.2) ∧
        c6heapOut[p.1.2]? =
          some (.pdict (setKeyP afs "profile" (.ref (p.2 + 1)))) ∧
        c6heapOut[p.2 + 1]? =
          some (.pdict [("streams", .ref 0)])) :=
  step5_aliasing_amended [("streams", .ref 0)] (.pstr "d") [1, 3] [2, 4]
    c6heap c6heapOut [5, 7]
    (by decide) (by decide) (by decide) (by decide) (by decide)
